import Mathlib

/-!
# Minions: modmer and syncmer views

A shallow embedding of the sketching views of the repository:

* `include/modmer.hpp`: `modmer_view`, its `basic_iterator` and the adaptor `modmer_fn`;
* `include/syncmer_hash.hpp`: the adaptor `syncmer_hash_fn`;
* `include/minstrobe_hash.hpp`: the adaptor `minstrobe_hash_fn`;
* the syncmer selector of `syncmer.hpp`, which `syncmer_hash.hpp` includes and the API tests
  exercise.

Ranges are finite lists of natural numbers, iterators are positions into the list, `size_t`
arithmetic is arithmetic modulo `2 ^ 64`, and undefined behaviour of the C++ code (a zero divisor,
stepping over the end) is an explicit `fault`.
-/

namespace Minions

/-! ## Machine words -/

deriving instance DecidableEq for Except

/-- The number of values of a `size_t` / `uint64_t`. -/
def word : Nat := 2 ^ 64

/-! ## `modmer.hpp` -/

/-- The ways in which running the iterator code can go wrong at run time. -/
inductive fault where
  /-- The expression `*urng1_iterator % mod` was evaluated with `mod == 0`. -/
  | zero_divisor
  /-- An iterator equal to its sentinel was incremented or dereferenced. -/
  | past_the_end
  deriving DecidableEq, Repr

/-- The members of `modmer_view`: the underlying range and the modulus. -/
structure modmer_view where
  /-- The first underlying range. -/
  urange1 : List Nat
  /-- The number of values in one window. -/
  mod_used : Nat
  deriving DecidableEq, Repr

/-- The private members of `modmer_view::basic_iterator`. The two underlying iterators are
positions into the underlying range. -/
structure basic_iterator where
  /-- The modmer value. -/
  modmer_value : Nat
  /-- Iterator to the rightmost value of one window. -/
  urng1_iterator : Nat
  /-- Iterator to last element in range. -/
  urng1_sentinel : Nat
  /-- The modulus. -/
  mod : Nat
  /-- The distance counter. -/
  distance : Nat
  deriving DecidableEq, Repr

/-- The comparison `operator==(basic_iterator const & lhs, sentinel const &)`. -/
def basic_iterator.at_end (it : basic_iterator) : Bool :=
  it.urng1_iterator == it.urng1_sentinel

/-- The comparison `operator==(basic_iterator const & lhs, basic_iterator const & rhs)`. -/
def basic_iterator.eq_iterator (lhs rhs : basic_iterator) : Bool :=
  lhs.urng1_iterator == rhs.urng1_iterator

/-- The dereference `operator*`. -/
def basic_iterator.deref (it : basic_iterator) : Nat :=
  it.modmer_value

/-- The member `advance()`: `distance++; ++urng1_iterator;`. Incrementing an iterator that is
not before the sentinel is a fault. -/
def advance (it : basic_iterator) : Except fault basic_iterator :=
  if it.urng1_iterator < it.urng1_sentinel then
    .ok { it with distance := (it.distance + 1) % word, urng1_iterator := it.urng1_iterator + 1 }
  else
    .error fault.past_the_end

/-- The member `next_modmer()`: returns `true` if a new modmer is found or the end is reached.
The flag `measure_distance` is the template parameter of the view. -/
def next_modmer (measure_distance : Bool) (urange1 : List Nat) (it : basic_iterator) :
    Except fault (Bool × basic_iterator) :=
  if it.urng1_iterator == it.urng1_sentinel then
    .ok (true, it)
  else
    match urange1[it.urng1_iterator]? with
    | none => .error fault.past_the_end
    | some x =>
      if it.mod == 0 then
        .error fault.zero_divisor
      else if x % it.mod == 0 then
        if measure_distance then
          .ok (true, { it with modmer_value := (it.distance + word - 1) % word, distance := 0 })
        else
          .ok (true, { it with modmer_value := x })
      else
        .ok (false, it)

/-- The loop `while (1) { advance(); if (next_modmer()) break; }` of `next_unique_modmer()`,
with the number of remaining underlying positions as the bound on its rounds. With no position
left the first `advance()` already steps over the end. -/
def next_unique_modmer_loop (measure_distance : Bool) (urange1 : List Nat) :
    Nat → basic_iterator → Except fault basic_iterator
  | 0, _ => .error fault.past_the_end
  | n + 1, it =>
    match advance it with
    | .error e => .error e
    | .ok it1 =>
      match next_modmer measure_distance urange1 it1 with
      | .error e => .error e
      | .ok (true, it2) => .ok it2
      | .ok (false, it2) => next_unique_modmer_loop measure_distance urange1 n it2

/-- The member `next_unique_modmer()`. -/
def next_unique_modmer (measure_distance : Bool) (urange1 : List Nat) (it : basic_iterator) :
    Except fault basic_iterator :=
  next_unique_modmer_loop measure_distance urange1 (it.urng1_sentinel - it.urng1_iterator) it

/-- The member `first_modmer()`: `if (!next_modmer()) next_unique_modmer();`. -/
def first_modmer (measure_distance : Bool) (urange1 : List Nat) (it : basic_iterator) :
    Except fault basic_iterator :=
  match next_modmer measure_distance urange1 it with
  | .error e => .error e
  | .ok (true, it1) => .ok it1
  | .ok (false, it1) => next_unique_modmer measure_distance urange1 it1

/-- The constructor `basic_iterator(urng1_iterator, urng1_sentinel, mod_used)`. The members
`modmer_value` and `distance` start from their default initialisers `{}` and `{1}`. The
constructor body computes `std::min(mod_used, size)` into its own parameter, which nothing reads
afterwards, and then primes the iterator with `first_modmer()`. -/
def basic_iterator.mk_begin (measure_distance : Bool) (urange1 : List Nat)
    (urng1_iterator urng1_sentinel mod_used : Nat) : Except fault basic_iterator :=
  let size := urng1_sentinel - urng1_iterator
  let _mod_used := min mod_used size
  first_modmer measure_distance urange1
    { modmer_value := 0, urng1_iterator := urng1_iterator, urng1_sentinel := urng1_sentinel,
      mod := mod_used, distance := 1 }

/-- The member `modmer_view::begin()`. -/
def modmer_view.begin (measure_distance : Bool) (v : modmer_view) : Except fault basic_iterator :=
  basic_iterator.mk_begin measure_distance v.urange1 0 v.urange1.length v.mod_used

/-- The pre-increment `operator++`. -/
def basic_iterator.incr (measure_distance : Bool) (urange1 : List Nat) (it : basic_iterator) :
    Except fault basic_iterator :=
  next_unique_modmer measure_distance urange1 it

/-- The consumer loop `for (; it != end(); ++it) out.push_back(*it);`, bounded by the number of
remaining underlying positions. -/
def drain (measure_distance : Bool) (urange1 : List Nat) :
    Nat → basic_iterator → Except fault (List Nat)
  | 0, it => if it.at_end then .ok [] else .error fault.past_the_end
  | n + 1, it =>
    if it.at_end then .ok []
    else
      match basic_iterator.incr measure_distance urange1 it with
      | .error e => .error e
      | .ok it1 =>
        match drain measure_distance urange1 n it1 with
        | .error e => .error e
        | .ok rest => .ok (it.deref :: rest)

/-- The sequence read off a view by iterating from `begin()` to `end()`. -/
def modmer_view.to_list (measure_distance : Bool) (v : modmer_view) : Except fault (List Nat) :=
  match v.begin measure_distance with
  | .error e => .error e
  | .ok it => drain measure_distance v.urange1 (it.urng1_sentinel - it.urng1_iterator) it

/-- The text of the exception thrown by `modmer_fn::operator()`. -/
def modmer_error : String :=
  "The chosen mod_used is not valid. Please choose a value greater than 1 or use two ranges."

/-- The adaptor `modmer_fn::operator()(urange1, mod_used)`: throws `std::invalid_argument` when
`mod_used == 1` and otherwise returns `modmer_view{urange1, mod_used}`. -/
def modmer_fn (urange1 : List Nat) (mod_used : Nat) : Except String modmer_view :=
  if mod_used == 1 then
    .error modmer_error
  else
    .ok { urange1 := urange1, mod_used := mod_used }

/-- The pipeline `urange1 | modmer(mod_used)` read to the end: the adaptor, which always builds
the view with `measure_distance = false`, then the traversal. The outer result is the
construction, the inner one the iteration. -/
def modmer (urange1 : List Nat) (mod_used : Nat) : Except String (Except fault (List Nat)) :=
  match modmer_fn urange1 mod_used with
  | .error e => .error e
  | .ok v => .ok (v.to_list false)

/-! ## The hash source

`seqan3::views::kmer_hash` belongs to the SeqAn3 library. For an ungapped shape of size `k` over
`dna4` it yields, for every window of `k` consecutive symbols, the base-4 number spelled by the
ranks of the window, in 64-bit arithmetic. The definitions of this section are the sequence read
off a hash view once it exists; the check its constructor performs on the shape is
`kmer_hash_view` further down. -/

/-- The alphabet `seqan3::dna4`. -/
inductive dna4 where
  | A | C | G | T
  deriving DecidableEq, Repr

/-- The rank `seqan3::to_rank` of a `dna4` letter. -/
def dna4.to_rank : dna4 → Nat
  | .A => 0
  | .C => 1
  | .G => 2
  | .T => 3

/-- The hash of one window under an ungapped shape: `hash = hash * 4 + rank` per symbol. -/
def hash_window (window : List dna4) : Nat :=
  window.foldl (fun h c => (h * 4 + c.to_rank) % word) 0

/-- The sequence `text | seqan3::views::kmer_hash(seqan3::ungapped{k})`, for a size the
constructor of the hash view accepts: one hash per window of `k` consecutive symbols, none when
the text is shorter than `k`. -/
def kmer_hash (k : Nat) : List dna4 → List Nat
  | [] => if k ≤ 0 then [hash_window []] else []
  | c :: t =>
    if k ≤ (c :: t).length then hash_window ((c :: t).take k) :: kmer_hash k t else []

/-! ## The syncmer selector (`syncmer.hpp`) -/

/-- Modelled from the spec: the scan of one span of `syncmer.hpp`, which is not among the
sources. "Compute the position of the minimal value (ties → leftmost) using strict `<`":
`best_value` at `best_position` is the minimum so far, `position` is the offset of the next
value. -/
def min_position_from (best_value best_position position : Nat) : List Nat → Nat
  | [] => best_position
  | x :: rest =>
    if x < best_value then min_position_from x position (position + 1) rest
    else min_position_from best_value best_position (position + 1) rest

/-- Modelled from the spec: the position of the minimal s-mer value within one span of
`syncmer.hpp`, found with `min_position_from` starting at the first value. -/
def min_position : List Nat → Nat
  | [] => 0
  | x :: rest => min_position_from x 0 1 rest

/-- Modelled from the spec: the boundary test of `syncmer.hpp`: "test whether that minimal
position is at the span's first offset (open) or first-or-last offset (closed)". -/
def is_syncmer (open_syncmer : Bool) (window : List Nat) : Bool :=
  min_position window == 0 || (!open_syncmer && min_position window + 1 == window.length)

/-- Modelled from the spec: the class `syncmer_view` of `syncmer.hpp`, read from begin to end.
`urange1` is the s-mer hash sequence, `urange2` the k-mer hash sequence, `width` the span
`k - s + 1`. Both cursors step together; the end is reached when either sequence is exhausted or
fewer than `width` s-mer values remain; a k-mer value is emitted iff its span passes
`is_syncmer`. -/
def syncmer_view (open_syncmer : Bool) : List Nat → List Nat → Nat → List Nat
  | [], _, _ => []
  | _, [], _ => []
  | s :: urange1, k :: urange2, width =>
    if (s :: urange1).length < width then []
    else if is_syncmer open_syncmer ((s :: urange1).take width) then
      k :: syncmer_view open_syncmer urange1 urange2 width
    else
      syncmer_view open_syncmer urange1 urange2 width

/-- Modelled from the spec: the pipeline of the API tests of `syncmer.hpp`,
`text | kmer_hash(ungapped{s}) | syncmer(kmer_hash(ungapped{k}), s, k)`, closed by default and
open with the template flag: the selector over the two hash sequences of one text with span
width `k - s + 1`. -/
def syncmer (open_syncmer : Bool) (smer_size kmer_size : Nat) (text : List dna4) : List Nat :=
  syncmer_view open_syncmer (kmer_hash smer_size text) (kmer_hash kmer_size text)
    (kmer_size - smer_size + 1)

/-! ## `syncmer_hash.hpp` -/

/-- The default seed `seqan3::seed{0x8F3F73B5CF1C9ADE}`. -/
def default_seed : Nat := 0x8F3F73B5CF1C9ADE

/-- The text of the exception thrown by `syncmer_hash_fn::operator()`. The two string literals
are adjacent in the source, with no blank between the sentences. -/
def syncmer_hash_error : String :=
  "The chosen Kmer is not valid.Please choose a value greater than 1."

/-- The `size_t` expression `kmer_size - smer_size + 1`. -/
def syncmer_width (smer_size kmer_size : Nat) : Nat :=
  ((kmer_size + word - smer_size % word) % word + 1) % word

/-- The adaptor `syncmer_hash_fn::operator()(urange, smer_size, kmer_size, seed)`: throws when
`kmer_size == 1`; otherwise hashes the text at both sizes, XORs every hash with the seed and
hands both sequences and `kmer_size - smer_size + 1` to `syncmer_view`, whose open flag is left
at its default. Both hash views are taken as constructed; `syncmer_hash_fn` further down adds
their constructor. -/
def syncmer_hash (urange : List dna4) (smer_size kmer_size : Nat) (seed : Nat := default_seed) :
    Except String (List Nat) :=
  if kmer_size == 1 then
    .error syncmer_hash_error
  else
    let first_hash := (kmer_hash smer_size urange).map (fun i => i ^^^ seed)
    let second_hash := (kmer_hash kmer_size urange).map (fun i => i ^^^ seed)
    .ok (syncmer_view false first_hash second_hash (syncmer_width smer_size kmer_size))

/-- The closure `syncmer_hash(smer_size, kmer_size)` of pipe notation: the overload without a
seed stores the two sizes, and applying it to a range calls the range overload with them. -/
def syncmer_hash_closure (smer_size kmer_size : Nat) (urange : List dna4) :
    Except String (List Nat) :=
  syncmer_hash urange smer_size kmer_size

/-- The closure `syncmer_hash(smer_size, kmer_size, seed)` of pipe notation. -/
def syncmer_hash_closure_seed (smer_size kmer_size seed : Nat) (urange : List dna4) :
    Except String (List Nat) :=
  syncmer_hash urange smer_size kmer_size seed

/-! ## `minstrobe_hash.hpp` -/

/-- A `seqan3::shape`: one flag per position of the window, set where the symbol enters the
hash. -/
abbrev shape : Type := List Bool

/-- The shape `seqan3::ungapped{k}`: `k` set flags. -/
def ungapped (k : Nat) : shape := List.replicate k true

/-- The hash of one window under a shape: `hash = hash * 4 + rank` for every symbol whose flag is
set. -/
def hash_shape (s : shape) (window : List dna4) : Nat :=
  (List.zip s window).foldl (fun h bc => if bc.1 then (h * 4 + bc.2.to_rank) % word else h) 0

/-- The sequence `text | seqan3::views::kmer_hash(shape)`, for a shape the constructor of the
hash view accepts: one hash per window of as many consecutive symbols as the shape has flags. -/
def kmer_hash_shape (s : shape) : List dna4 → List Nat
  | [] => if s.length ≤ 0 then [hash_shape s []] else []
  | c :: t =>
    if s.length ≤ (c :: t).length then
      hash_shape s ((c :: t).take s.length) :: kmer_hash_shape s t
    else []

/-- The text of the exception thrown by `minstrobe_hash_fn::operator()`. -/
def minstrobe_hash_error : String :=
  "The chosen parameters are not valid. Please choose a value greater than 1."

/-- The adaptor `minstrobe_hash_fn::operator()(urange, shape, w_min, w_max, seed)`: throws when
`w_max == 1`; otherwise hashes the text with the shape, XORs every hash with the seed and hands
that sequence with `w_min` and `w_max` to `minstrobe_view`. The class `minstrobe_view` is
declared in `minstrobe.hpp`; the adaptor is embedded over whatever that constructor returns. The
hash view is taken as constructed; `minstrobe_hash_fn` further down adds its constructor. -/
def minstrobe_hash {β : Type} (minstrobe_view : List Nat → Nat → Nat → β) (urange : List dna4)
    (sh : shape) (w_min w_max : Nat) (seed : Nat := default_seed) : Except String β :=
  if w_max == 1 then
    .error minstrobe_hash_error
  else
    let forward_strand := (kmer_hash_shape sh urange).map (fun i => i ^^^ seed)
    .ok (minstrobe_view forward_strand w_min w_max)

/-- The closure `minstrobe_hash(shape, w_min, w_max)` of pipe notation, without a seed. -/
def minstrobe_hash_closure {β : Type} (minstrobe_view : List Nat → Nat → Nat → β) (sh : shape)
    (w_min w_max : Nat) (urange : List dna4) : Except String β :=
  minstrobe_hash minstrobe_view urange sh w_min w_max

/-! ## The constructor of the hash view

`range | seqan3::views::kmer_hash(shape)` constructs a `seqan3::detail::kmer_hash_view` on the
spot. That constructor, part of the SeqAn3 library, throws `std::invalid_argument` when the shape
has more set positions than fit into a 64-bit hash, `64 / log2(alphabet size)`, which is 32 over
`dna4`. A `seqan3::shape` is a `dynamic_bitset<58>` and `seqan3::ungapped` wraps a `uint8_t`, so
sizes above 58 have no shape at all. `kmer_hash` and `kmer_hash_shape` above are the sequences
read off a hash view that was constructed; `syncmer_hash` and `minstrobe_hash` above are the
adaptors over such views and over a selector that is constructed. The adaptors below add the
construction of the hash views and of the selector, in the order of the statements of
`operator()`. -/

/-- The number of positions a `seqan3::shape` can hold. -/
def shape_capacity : Nat := 58

/-- The largest number of set positions the constructor of `kmer_hash_view` accepts over `dna4`:
`64 / log2(4)`. -/
def max_shape_count : Nat := 32

/-- The text of the exception thrown by the constructor of `kmer_hash_view`. -/
def kmer_hash_view_error : String :=
  "The chosen shape/alphabet combination is not valid. The alphabet or shape size must be reduced."

/-- The constructor of `seqan3::detail::kmer_hash_view` over `dna4`, followed by reading the
view: throws when `shape.count()` exceeds `64 / log2(4)`, otherwise the hash sequence under the
shape. -/
def kmer_hash_view (s : shape) (urange : List dna4) : Except String (List Nat) :=
  if max_shape_count < List.count true s then
    .error kmer_hash_view_error
  else
    .ok (kmer_hash_shape s urange)

/-- The call `syncmer_hash_fn::operator()(urange, smer_size, kmer_size, seed)` with every
constructor it runs, in the order of its statements: first the test `kmer_size == 1`, then the
hash view of size `smer_size`, then the hash view of size `kmer_size`, then the constructor of
`syncmer_view`. That class is declared in `syncmer.hpp`; its constructor is a parameter here and
may throw. -/
def syncmer_hash_fn {β : Type} (syncmer_view : List Nat → List Nat → Nat → Except String β)
    (urange : List dna4) (smer_size kmer_size : Nat) (seed : Nat := default_seed) :
    Except String β :=
  if kmer_size == 1 then
    .error syncmer_hash_error
  else
    match kmer_hash_view (ungapped smer_size) urange with
    | .error e => .error e
    | .ok smer_hashes =>
      let first_hash := smer_hashes.map (fun i => i ^^^ seed)
      match kmer_hash_view (ungapped kmer_size) urange with
      | .error e => .error e
      | .ok kmer_hashes =>
        let second_hash := kmer_hashes.map (fun i => i ^^^ seed)
        syncmer_view first_hash second_hash (syncmer_width smer_size kmer_size)

/-- The call `minstrobe_hash_fn::operator()(urange, shape, w_min, w_max, seed)` with every
constructor it runs, in the order of its statements: first the test `w_max == 1`, then the hash
view under the shape, then the constructor of `minstrobe_view`. That class is declared in
`minstrobe.hpp`; its constructor is a parameter here and may throw. -/
def minstrobe_hash_fn {β : Type} (minstrobe_view : List Nat → Nat → Nat → Except String β)
    (urange : List dna4) (sh : shape) (w_min w_max : Nat) (seed : Nat := default_seed) :
    Except String β :=
  if w_max == 1 then
    .error minstrobe_hash_error
  else
    match kmer_hash_view sh urange with
    | .error e => .error e
    | .ok hashes =>
      let forward_strand := hashes.map (fun i => i ^^^ seed)
      minstrobe_view forward_strand w_min w_max

/-! ## The minstrobe selector (`minstrobe.hpp`) -/

/-- Modelled from the spec: the window that `minstrobe.hpp`, which is not among the sources,
scans for the anchor at `pos`: the values at the positions `[pos + w_min, pos + w_max)`,
"clipped at sequence end". -/
def minstrobe_window (urange : List Nat) (pos w_min w_max : Nat) : List Nat :=
  (urange.drop (pos + w_min)).take (w_max - w_min)

/-- Modelled from the spec: the position `minstrobe.hpp` selects for the anchor at `pos`:
"track the minimum value and its first-occurrence position using strict `<` comparison", the same
scan as the syncmer selector. There is none when the clipped window is empty. -/
def strobe_position (urange : List Nat) (pos w_min w_max : Nat) : Option Nat :=
  match minstrobe_window urange pos w_min w_max with
  | [] => none
  | x :: rest => some (pos + w_min + min_position (x :: rest))

/-- Modelled from the spec: the value `minstrobe.hpp` produces for the anchor at `pos`: the
anchor value combined with the value at the selected position. The spec leaves the combination
open ("typically a packed pair or XOR/concat"), so it is the parameter `combine`. -/
def minstrobe_at (combine : Nat → Nat → Nat) (urange : List Nat) (pos w_min w_max : Nat) :
    Option Nat :=
  match urange[pos]?, strobe_position urange pos w_min w_max with
  | some anchor, some p => some (combine anchor (urange.getD p 0))
  | _, _ => none

/-- Modelled from the spec: the class `minstrobe_view` of `minstrobe.hpp`, read from begin to
end: "one output value per valid input position", the anchor advancing by one position per
output element. -/
def minstrobe_view (combine : Nat → Nat → Nat) (urange : List Nat) (w_min w_max : Nat) :
    List Nat :=
  (List.range urange.length).filterMap (fun pos => minstrobe_at combine urange pos w_min w_max)

/-! ## Specification vocabulary -/

/-- Offset `p` holds the leftmost minimum of the span `S[i], ..., S[i + w - 1]`: the value there
is at most every value of the span and strictly below every earlier one. -/
def leftmost_min_offset (S : List Nat) (i w p : Nat) : Prop :=
  p < w ∧ (∀ j, j < w → S.getD (i + p) 0 ≤ S.getD (i + j) 0) ∧
    (∀ j, j < p → S.getD (i + p) 0 < S.getD (i + j) 0)

instance (S : List Nat) (i w p : Nat) : Decidable (leftmost_min_offset S i w p) :=
  inferInstanceAs (Decidable (p < w ∧ (∀ j, j < w → S.getD (i + p) 0 ≤ S.getD (i + j) 0) ∧
    (∀ j, j < p → S.getD (i + p) 0 < S.getD (i + j) 0)))

/-- The text `AAAAAA` of the API tests. -/
def text1 : List dna4 := [.A, .A, .A, .A, .A, .A]

/-- The text `ACGGCGACGTTTAG` of the API tests. -/
def text3 : List dna4 := [.A, .C, .G, .G, .C, .G, .A, .C, .G, .T, .T, .T, .A, .G]

/-- The text `ACGTCGACGTTTAG` of the API tests. -/
def text4 : List dna4 := [.A, .C, .G, .T, .C, .G, .A, .C, .G, .T, .T, .T, .A, .G]

/-- The qualifying positions of an input: the indices `i` with `xs[i] % mod_used == 0`, in
increasing order. -/
def qualifying_positions (xs : List Nat) (mod_used : Nat) : List Nat :=
  (List.range xs.length).filter (fun i => xs.getD i 0 % mod_used == 0)

/-- The gaps of an increasing list of positions `p_0, p_1, ...`: `p_0`, then
`p_j - p_(j-1) - 1`. -/
def gaps : List Nat → List Nat
  | [] => []
  | p :: rest => p :: List.zipWith (fun a b => b - a - 1) (p :: rest) rest

/-- The run lengths of non-qualifying values before each qualifying value, counted from
`gap`. -/
def gaps_from (mod_used : Nat) : Nat → List Nat → List Nat
  | _, [] => []
  | gap, x :: xs =>
    if x % mod_used == 0 then gap :: gaps_from mod_used 0 xs
    else gaps_from mod_used (gap + 1) xs

/-- The qualifying positions of a list whose first value sits at position `off`. -/
def positions_from (mod_used : Nat) : Nat → List Nat → List Nat
  | _, [] => []
  | off, x :: xs =>
    if x % mod_used == 0 then off :: positions_from mod_used (off + 1) xs
    else positions_from mod_used (off + 1) xs

/-! ## The accesses of a traversal

The iterator operations once more, statement by statement, each returning with its result what it
did to the underlying range, in the order of execution. Comparing an iterator with the sentinel
and `operator*` of the modmer iterator, which returns the stored `modmer_value`, do not touch the
underlying range and leave no entry. -/

/-- One operation on the underlying range, with the position of the underlying iterator it is
applied to. -/
inductive access where
  /-- An increment of the copy of the iterator that `std::ranges::distance` walks to the sentinel
  in the constructor, when the sentinel is not a sized sentinel. -/
  | walk (position : Nat)
  /-- The increment `++urng1_iterator` in `advance()`. -/
  | step (position : Nat)
  /-- The dereference in the condition `*urng1_iterator % mod == 0` of `next_modmer()`. -/
  | test (position : Nat)
  /-- The dereference in the assignment `modmer_value = *urng1_iterator` of `next_modmer()`. -/
  | load (position : Nat)
  deriving DecidableEq, Repr

/-- The positions at which a trace evaluates the divisibility test. -/
def tested_positions (trace : List access) : List Nat :=
  trace.filterMap (fun a => match a with | .test p => some p | _ => none)

/-- The positions whose value a trace copies into `modmer_value`. -/
def loaded_positions (trace : List access) : List Nat :=
  trace.filterMap (fun a => match a with | .load p => some p | _ => none)

/-- The positions from which a trace increments the iterator in `advance()`. -/
def stepped_positions (trace : List access) : List Nat :=
  trace.filterMap (fun a => match a with | .step p => some p | _ => none)

/-- The positions the constructor walks over to measure the range. -/
def walked_positions (trace : List access) : List Nat :=
  trace.filterMap (fun a => match a with | .walk p => some p | _ => none)

/-- The member `advance()` with its accesses: `distance++; ++urng1_iterator;`. -/
def advance_traced (it : basic_iterator) : Except fault (basic_iterator × List access) :=
  if it.urng1_iterator < it.urng1_sentinel then
    .ok ({ it with distance := (it.distance + 1) % word, urng1_iterator := it.urng1_iterator + 1 },
      [access.step it.urng1_iterator])
  else
    .error fault.past_the_end

/-- The member `next_modmer()` with its accesses: at the end it returns before any dereference;
otherwise the condition dereferences the iterator once, and in value mode a hit dereferences it a
second time for the assignment to `modmer_value`. -/
def next_modmer_traced (measure_distance : Bool) (urange1 : List Nat) (it : basic_iterator) :
    Except fault ((Bool × basic_iterator) × List access) :=
  if it.urng1_iterator == it.urng1_sentinel then
    .ok ((true, it), [])
  else
    match urange1[it.urng1_iterator]? with
    | none => .error fault.past_the_end
    | some x =>
      if it.mod == 0 then
        .error fault.zero_divisor
      else if x % it.mod == 0 then
        if measure_distance then
          .ok ((true, { it with modmer_value := (it.distance + word - 1) % word, distance := 0 }),
            [access.test it.urng1_iterator])
        else
          .ok ((true, { it with modmer_value := x }),
            [access.test it.urng1_iterator, access.load it.urng1_iterator])
      else
        .ok ((false, it), [access.test it.urng1_iterator])

/-- The loop of `next_unique_modmer()` with its accesses. -/
def next_unique_modmer_loop_traced (measure_distance : Bool) (urange1 : List Nat) :
    Nat → basic_iterator → Except fault (basic_iterator × List access)
  | 0, _ => .error fault.past_the_end
  | n + 1, it =>
    match advance_traced it with
    | .error e => .error e
    | .ok (it1, stepped) =>
      match next_modmer_traced measure_distance urange1 it1 with
      | .error e => .error e
      | .ok ((true, it2), tested) => .ok (it2, stepped ++ tested)
      | .ok ((false, it2), tested) =>
        match next_unique_modmer_loop_traced measure_distance urange1 n it2 with
        | .error e => .error e
        | .ok (it3, trace) => .ok (it3, stepped ++ tested ++ trace)

/-- The member `next_unique_modmer()` with its accesses. -/
def next_unique_modmer_traced (measure_distance : Bool) (urange1 : List Nat)
    (it : basic_iterator) : Except fault (basic_iterator × List access) :=
  next_unique_modmer_loop_traced measure_distance urange1 (it.urng1_sentinel - it.urng1_iterator)
    it

/-- The member `first_modmer()` with its accesses. -/
def first_modmer_traced (measure_distance : Bool) (urange1 : List Nat) (it : basic_iterator) :
    Except fault (basic_iterator × List access) :=
  match next_modmer_traced measure_distance urange1 it with
  | .error e => .error e
  | .ok ((true, it1), tested) => .ok (it1, tested)
  | .ok ((false, it1), tested) =>
    match next_unique_modmer_traced measure_distance urange1 it1 with
    | .error e => .error e
    | .ok (it2, trace) => .ok (it2, tested ++ trace)

/-- The constructor `basic_iterator(urng1_iterator, urng1_sentinel, mod_used)` with its accesses.
`std::ranges::distance` subtracts when the sentinel is a sized sentinel for the iterator
(`sized_sentinel`); otherwise it increments a copy of the iterator up to the sentinel, once per
position and without a dereference. Then `first_modmer()` runs. -/
def basic_iterator.mk_begin_traced (sized_sentinel measure_distance : Bool) (urange1 : List Nat)
    (urng1_iterator urng1_sentinel mod_used : Nat) : Except fault (basic_iterator × List access) :=
  let size := urng1_sentinel - urng1_iterator
  let walked := if sized_sentinel then [] else (List.range' urng1_iterator size).map access.walk
  let _mod_used := min mod_used size
  match first_modmer_traced measure_distance urange1
      { modmer_value := 0, urng1_iterator := urng1_iterator, urng1_sentinel := urng1_sentinel,
        mod := mod_used, distance := 1 } with
  | .error e => .error e
  | .ok (it, trace) => .ok (it, walked ++ trace)

/-- The member `modmer_view::begin()` with the accesses of the constructor it calls;
`std::ranges::begin(urange1)` and `std::ranges::end(urange1)` yield the two underlying iterators
and read no element. -/
def modmer_view.begin_traced (sized_sentinel measure_distance : Bool) (v : modmer_view) :
    Except fault (basic_iterator × List access) :=
  basic_iterator.mk_begin_traced sized_sentinel measure_distance v.urange1 0 v.urange1.length
    v.mod_used

/-- The pre-increment `operator++` with its accesses. -/
def basic_iterator.incr_traced (measure_distance : Bool) (urange1 : List Nat)
    (it : basic_iterator) : Except fault (basic_iterator × List access) :=
  next_unique_modmer_traced measure_distance urange1 it

/-- The consumer loop `for (; it != end(); ++it) out.push_back(*it);` with the accesses of its
pre-increments. -/
def drain_traced (measure_distance : Bool) (urange1 : List Nat) :
    Nat → basic_iterator → Except fault (List Nat × List access)
  | 0, it => if it.at_end then .ok ([], []) else .error fault.past_the_end
  | n + 1, it =>
    if it.at_end then .ok ([], [])
    else
      match basic_iterator.incr_traced measure_distance urange1 it with
      | .error e => .error e
      | .ok (it1, trace) =>
        match drain_traced measure_distance urange1 n it1 with
        | .error e => .error e
        | .ok (rest, more) => .ok (it.deref :: rest, trace ++ more)

/-- The sequence read off a view by iterating from `begin()` to `end()`, with all accesses to the
underlying range. -/
def modmer_view.to_list_traced (sized_sentinel measure_distance : Bool) (v : modmer_view) :
    Except fault (List Nat × List access) :=
  match v.begin_traced sized_sentinel measure_distance with
  | .error e => .error e
  | .ok (it, trace) =>
    match drain_traced measure_distance v.urange1 (it.urng1_sentinel - it.urng1_iterator) it with
    | .error e => .error e
    | .ok (out, more) => .ok (out, trace ++ more)

/-- The accesses of a scan that is about to test position `position`, over the values from that
position on: per position the test, in value mode the load of a value the modulus divides, and
the step to the next position. -/
def scan_accesses (measure_distance : Bool) (mod_used : Nat) : Nat → List Nat → List access
  | _, [] => []
  | position, x :: xs =>
    access.test position ::
      ((if x % mod_used == 0 && !measure_distance then [access.load position] else []) ++
        access.step position :: scan_accesses measure_distance mod_used (position + 1) xs)

/-- The accesses that remain for an iterator resting at `position` after the test there: the
step away from it and the scan of the later positions; none at the end. -/
def accesses_after (measure_distance : Bool) (mod_used : Nat) (xs : List Nat) (position : Nat) :
    List access :=
  if position < xs.length then
    access.step position ::
      scan_accesses measure_distance mod_used (position + 1) (xs.drop (position + 1))
  else []

/-! ## Two traversals of one view

The objects of a program that calls `begin()` twice on one view and iterates each iterator to
the end: the view, the two iterator objects, and the parameters and the local of the constructor
call that `begin()` makes. Every statement is a step on this memory. -/

/-- The memory of two traversals of one view. -/
structure memory where
  /-- The view object, with its members `urange1` and `mod_used`. -/
  view : modmer_view
  /-- The constructor parameter `urng1_iterator`. -/
  param_urng1_iterator : Nat
  /-- The constructor parameter `urng1_sentinel`. -/
  param_urng1_sentinel : Nat
  /-- The constructor parameter `mod_used`, which hides the member of the view of that name. -/
  param_mod_used : Nat
  /-- The local `size` of the constructor body. -/
  size : Nat
  /-- The iterator object of the first traversal. -/
  first : basic_iterator
  /-- The iterator object of the second traversal. -/
  second : basic_iterator
  deriving DecidableEq, Repr

/-- The iterator object of the first (`false`) or the second (`true`) traversal. -/
def memory.iterator (m : memory) (second : Bool) : basic_iterator :=
  if second then m.second else m.first

/-- Writing the members of one of the two iterator objects. -/
def memory.set_iterator (m : memory) (second : Bool) (it : basic_iterator) : memory :=
  if second then { m with second := it } else { m with first := it }

/-- A member function of `basic_iterator` called on one of the two iterator objects. A
`basic_iterator` has five members, `modmer_value`, `urng1_iterator`, `urng1_sentinel`, `mod` and
`distance`, and no pointer or reference to the `modmer_view`: its member functions read and
write the members of `*this` and dereference `urng1_iterator` into the underlying range. -/
def memory.call (m : memory) (second : Bool)
    (f : List Nat → basic_iterator → Except fault basic_iterator) : Except fault memory :=
  match f m.view.urange1 (m.iterator second) with
  | .error e => .error e
  | .ok it => .ok (m.set_iterator second it)

/-- The member `modmer_view::begin()`, constructing its result in one of the two iterator
objects: `return {std::ranges::begin(urange1), std::ranges::end(urange1), mod_used};` copies the
three arguments into the parameters of the constructor; the member initialisers write
`urng1_iterator`, `urng1_sentinel` and `mod` from the parameters, and `modmer_value` and
`distance` from their default member initialisers; the body assigns the local `size`, then the
parameter `mod_used`, and calls `first_modmer()`. -/
def begin_in (second measure_distance : Bool) (m : memory) : Except fault memory :=
  let m1 := { m with param_urng1_iterator := 0,
                     param_urng1_sentinel := m.view.urange1.length,
                     param_mod_used := m.view.mod_used }
  let m2 := m1.set_iterator second
    { modmer_value := 0, urng1_iterator := m1.param_urng1_iterator,
      urng1_sentinel := m1.param_urng1_sentinel, mod := m1.param_mod_used, distance := 1 }
  let m3 := { m2 with size := m2.param_urng1_sentinel - m2.param_urng1_iterator }
  let m4 := { m3 with param_mod_used := min m3.param_mod_used m3.size }
  m4.call second (first_modmer measure_distance)

/-- The pre-increment `operator++` on one of the two iterator objects. -/
def incr_in (second measure_distance : Bool) (m : memory) : Except fault memory :=
  m.call second (basic_iterator.incr measure_distance)

/-- The consumer loop `for (; it != end(); ++it) out.push_back(*it);` over one of the two
iterator objects, bounded by the number of remaining underlying positions; it returns `out` and
the memory it leaves. -/
def drain_in (second measure_distance : Bool) : Nat → memory → Except fault (List Nat × memory)
  | 0, m => if (m.iterator second).at_end then .ok ([], m) else .error fault.past_the_end
  | n + 1, m =>
    if (m.iterator second).at_end then .ok ([], m)
    else
      match incr_in second measure_distance m with
      | .error e => .error e
      | .ok m1 =>
        match drain_in second measure_distance n m1 with
        | .error e => .error e
        | .ok (rest, m2) => .ok ((m.iterator second).deref :: rest, m2)

/-- One traversal: `begin()` into one of the two iterator objects, then the consumer loop over
it. -/
def traverse_in (second measure_distance : Bool) (m : memory) :
    Except fault (List Nat × memory) :=
  match begin_in second measure_distance m with
  | .error e => .error e
  | .ok m1 =>
    drain_in second measure_distance
      ((m1.iterator second).urng1_sentinel - (m1.iterator second).urng1_iterator) m1

/-! ## Reachable states and the converting constructor -/

/-- The iterator states of a value-mode traversal: the one `begin()` returns, and the one a
pre-increment returns from such a state that is not at the end. -/
inductive reachable (v : modmer_view) : basic_iterator → Prop where
  | begin (it : basic_iterator) : v.begin false = .ok it → reachable v it
  | incr (it it1 : basic_iterator) : reachable v it → it.at_end = false →
      it.incr false v.urange1 = .ok it1 → reachable v it1

/-- The converting constructor `basic_iterator(basic_iterator<!const_range> const & it)`, from
an iterator over the non-const range to one over the const range: its initialiser list names
`modmer_value`, `urng1_iterator` and `urng1_sentinel`; the members `mod` and `distance` are not
named and take their default member initialisers `{}` and `{1}`. -/
def basic_iterator.to_const (it : basic_iterator) : basic_iterator :=
  { modmer_value := it.modmer_value, urng1_iterator := it.urng1_iterator,
    urng1_sentinel := it.urng1_sentinel, mod := 0, distance := 1 }

/-! ## The modmer scan -/

theorem advance_of_lt (it : basic_iterator) (h : it.urng1_iterator < it.urng1_sentinel) :
    ∃ it1, advance it = .ok it1 ∧ it1.urng1_iterator = it.urng1_iterator + 1 ∧
      it1.urng1_sentinel = it.urng1_sentinel ∧ it1.mod = it.mod ∧
      it1.modmer_value = it.modmer_value ∧ it1.distance = (it.distance + 1) % word := by
  refine ⟨{ it with distance := (it.distance + 1) % word,
                    urng1_iterator := it.urng1_iterator + 1 }, ?_, rfl, rfl, rfl, rfl, rfl⟩
  simp [advance, h]

theorem next_modmer_of_end (md : Bool) (xs : List Nat) (it : basic_iterator)
    (h : it.urng1_iterator = it.urng1_sentinel) : next_modmer md xs it = .ok (true, it) := by
  simp [next_modmer, h]

theorem next_modmer_of_hit (xs : List Nat) (it : basic_iterator) (x : Nat)
    (hne : it.urng1_iterator ≠ it.urng1_sentinel) (hx : xs[it.urng1_iterator]? = some x)
    (hmod : it.mod ≠ 0) (hdiv : x % it.mod = 0) :
    next_modmer false xs it = .ok (true, { it with modmer_value := x }) := by
  simp [next_modmer, hne, hx, hmod, hdiv]

theorem next_modmer_distance_of_hit (xs : List Nat) (it : basic_iterator) (x : Nat)
    (hne : it.urng1_iterator ≠ it.urng1_sentinel) (hx : xs[it.urng1_iterator]? = some x)
    (hmod : it.mod ≠ 0) (hdiv : x % it.mod = 0) :
    next_modmer true xs it =
      .ok (true, { it with modmer_value := (it.distance + word - 1) % word, distance := 0 }) := by
  simp [next_modmer, hne, hx, hmod, hdiv]

theorem next_modmer_of_miss (md : Bool) (xs : List Nat) (it : basic_iterator) (x : Nat)
    (hne : it.urng1_iterator ≠ it.urng1_sentinel) (hx : xs[it.urng1_iterator]? = some x)
    (hmod : it.mod ≠ 0) (hdiv : x % it.mod ≠ 0) :
    next_modmer md xs it = .ok (false, it) := by
  simp [next_modmer, hne, hx, hmod, hdiv]

/-- One call of `next_unique_modmer_loop` from a position before the end, with a nonzero modulus
and enough rounds: it stops at the next position whose value the modulus divides, or at the end,
without a fault; the positions it steps over hold no such value. -/
theorem next_unique_modmer_loop_spec (md : Bool) (xs : List Nat) :
    ∀ (n : Nat) (it : basic_iterator), it.mod ≠ 0 → it.urng1_sentinel = xs.length →
      it.urng1_iterator + n = xs.length → 0 < n →
      ∃ it1, next_unique_modmer_loop md xs n it = .ok it1 ∧ it1.mod = it.mod ∧
        it1.urng1_sentinel = xs.length ∧ it.urng1_iterator < it1.urng1_iterator ∧
        it1.urng1_iterator ≤ xs.length ∧
        (xs.drop (it.urng1_iterator + 1)).filter (fun x => x % it.mod == 0) =
          (xs.drop it1.urng1_iterator).filter (fun x => x % it.mod == 0) ∧
        (∀ x, xs[it1.urng1_iterator]? = some x →
          x % it.mod = 0 ∧ (md = false → it1.modmer_value = x)) := by
  intro n
  induction n with
  | zero => intro it _ _ _ h; omega
  | succ n ih =>
    intro it hmod hsent hpos _
    obtain ⟨ita, ha, hapos, hasent, hamod, -, -⟩ := advance_of_lt it (by omega)
    simp only [next_unique_modmer_loop, ha]
    by_cases hend : it.urng1_iterator + 1 = xs.length
    · rw [next_modmer_of_end md xs ita (by omega)]
      refine ⟨ita, rfl, hamod, by omega, by omega, by omega, ?_, ?_⟩
      · rw [hapos]
      · intro x hx
        rw [hapos, hend] at hx
        simp at hx
    · have hlt2 : it.urng1_iterator + 1 < xs.length := by omega
      have hget : xs[ita.urng1_iterator]? = some xs[it.urng1_iterator + 1] := by
        rw [hapos]; exact List.getElem?_eq_getElem hlt2
      have hdrop : xs.drop (it.urng1_iterator + 1) =
          xs[it.urng1_iterator + 1] :: xs.drop (it.urng1_iterator + 1 + 1) :=
        List.drop_eq_getElem_cons hlt2
      have hne : ita.urng1_iterator ≠ ita.urng1_sentinel := by omega
      have hmoda : ita.mod ≠ 0 := by rw [hamod]; exact hmod
      by_cases hdiv : xs[it.urng1_iterator + 1] % it.mod = 0
      · have hdiva : xs[it.urng1_iterator + 1] % ita.mod = 0 := by rw [hamod]; exact hdiv
        have hval : ∀ x, xs[ita.urng1_iterator]? = some x → x % it.mod = 0 := by
          intro x hx
          rw [hget] at hx
          cases hx
          exact hdiv
        cases md with
        | false =>
          rw [next_modmer_of_hit xs ita _ hne hget hmoda hdiva]
          refine ⟨_, rfl, hamod, by simpa using (by omega : ita.urng1_sentinel = xs.length),
            by simp; omega, by simp; omega, by simp [hapos], ?_⟩
          intro x hx
          refine ⟨hval x hx, fun _ => ?_⟩
          simp only at hx
          rw [hget] at hx
          cases hx
          rfl
        | true =>
          rw [next_modmer_distance_of_hit xs ita _ hne hget hmoda hdiva]
          refine ⟨_, rfl, hamod, by simpa using (by omega : ita.urng1_sentinel = xs.length),
            by simp; omega, by simp; omega, by simp [hapos], ?_⟩
          intro x hx
          exact ⟨hval x hx, fun h => by cases h⟩
      · have hdiva : xs[it.urng1_iterator + 1] % ita.mod ≠ 0 := by rw [hamod]; exact hdiv
        rw [next_modmer_of_miss md xs ita _ hne hget hmoda hdiva]
        obtain ⟨it1, h1, h2, h3, h4, h5, h6, h7⟩ := ih ita hmoda (by omega) (by omega) (by omega)
        rw [hamod] at h2 h6 h7
        rw [hapos] at h6
        refine ⟨it1, h1, h2, h3, by omega, h5, ?_, h7⟩
        rw [hdrop, List.filter_cons_of_neg (by simpa using hdiv)]
        exact h6

/-- The member `next_unique_modmer()` from a position before the end. -/
theorem next_unique_modmer_spec (md : Bool) (xs : List Nat) (it : basic_iterator)
    (hmod : it.mod ≠ 0) (hsent : it.urng1_sentinel = xs.length)
    (hlt : it.urng1_iterator < xs.length) :
    ∃ it1, next_unique_modmer md xs it = .ok it1 ∧ it1.mod = it.mod ∧
      it1.urng1_sentinel = xs.length ∧ it.urng1_iterator < it1.urng1_iterator ∧
      it1.urng1_iterator ≤ xs.length ∧
      (xs.drop (it.urng1_iterator + 1)).filter (fun x => x % it.mod == 0) =
        (xs.drop it1.urng1_iterator).filter (fun x => x % it.mod == 0) ∧
      (∀ x, xs[it1.urng1_iterator]? = some x →
        x % it.mod = 0 ∧ (md = false → it1.modmer_value = x)) := by
  unfold next_unique_modmer
  exact next_unique_modmer_loop_spec md xs _ it hmod hsent (by omega) (by omega)

/-- Priming: `begin()` of a view with a nonzero modulus returns, without a fault, an iterator at
the first position whose value the modulus divides, or at the end. -/
theorem begin_spec (md : Bool) (v : modmer_view) (hmod : v.mod_used ≠ 0) :
    ∃ it, v.begin md = .ok it ∧ it.mod = v.mod_used ∧
      it.urng1_sentinel = v.urange1.length ∧ it.urng1_iterator ≤ v.urange1.length ∧
      v.urange1.filter (fun x => x % v.mod_used == 0) =
        (v.urange1.drop it.urng1_iterator).filter (fun x => x % v.mod_used == 0) ∧
      (∀ x, v.urange1[it.urng1_iterator]? = some x →
        x % v.mod_used = 0 ∧ (md = false → it.modmer_value = x)) := by
  obtain ⟨xs, m⟩ := v
  simp only at hmod ⊢
  simp only [modmer_view.begin, basic_iterator.mk_begin, first_modmer]
  generalize hit0 : basic_iterator.mk 0 0 xs.length m 1 = it0
  have h0pos : it0.urng1_iterator = 0 := by rw [← hit0]
  have h0sent : it0.urng1_sentinel = xs.length := by rw [← hit0]
  have h0mod : it0.mod = m := by rw [← hit0]
  have hmod0 : it0.mod ≠ 0 := by rw [h0mod]; exact hmod
  cases xs with
  | nil =>
    rw [next_modmer_of_end md [] it0 (by rw [h0pos, h0sent]; rfl)]
    exact ⟨it0, rfl, h0mod, h0sent, by rw [h0pos]; exact Nat.zero_le _, by simp, by simp⟩
  | cons a xs =>
    have hne : it0.urng1_iterator ≠ it0.urng1_sentinel := by
      rw [h0pos, h0sent]; simp
    have hget : (a :: xs)[it0.urng1_iterator]? = some a := by rw [h0pos]; simp
    by_cases hdiv : a % m = 0
    · have hdiv0 : a % it0.mod = 0 := by rw [h0mod]; exact hdiv
      have hval : ∀ x, (a :: xs)[it0.urng1_iterator]? = some x → x % m = 0 := by
        intro x hx
        rw [hget] at hx
        cases hx
        exact hdiv
      cases md with
      | false =>
        rw [next_modmer_of_hit (a :: xs) it0 a hne hget hmod0 hdiv0]
        refine ⟨_, rfl, h0mod, h0sent, by simp [h0pos], by simp [h0pos], ?_⟩
        intro x hx
        refine ⟨hval x hx, fun _ => ?_⟩
        simp only at hx
        rw [hget] at hx
        cases hx
        rfl
      | true =>
        rw [next_modmer_distance_of_hit (a :: xs) it0 a hne hget hmod0 hdiv0]
        refine ⟨_, rfl, h0mod, h0sent, by simp [h0pos], by simp [h0pos], ?_⟩
        intro x hx
        exact ⟨hval x hx, fun h => by cases h⟩
    · have hdiv0 : a % it0.mod ≠ 0 := by rw [h0mod]; exact hdiv
      rw [next_modmer_of_miss md (a :: xs) it0 a hne hget hmod0 hdiv0]
      obtain ⟨it1, h1, h2, h3, -, h5, h6, h7⟩ :=
        next_unique_modmer_spec md (a :: xs) it0 hmod0 h0sent (by rw [h0pos]; simp)
      rw [h0mod] at h2 h6 h7
      rw [h0pos] at h6
      refine ⟨it1, h1, h2, h3, h5, ?_, h7⟩
      rw [← h6]
      simp [List.filter_cons, hdiv]

/-- The consumer loop over a primed iterator in value mode, with a nonzero modulus and enough
rounds: no fault, and the values read are the values at or after the iterator position that the
modulus divides, in order. -/
theorem drain_spec (xs : List Nat) (m : Nat) (hm : m ≠ 0) :
    ∀ (n : Nat) (it : basic_iterator), it.mod = m → it.urng1_sentinel = xs.length →
      it.urng1_iterator ≤ xs.length → xs.length - it.urng1_iterator ≤ n →
      (∀ x, xs[it.urng1_iterator]? = some x → x % m = 0 ∧ it.modmer_value = x) →
      drain false xs n it = .ok ((xs.drop it.urng1_iterator).filter (fun x => x % m == 0)) := by
  intro n
  induction n with
  | zero =>
    intro it _ hsent hle hn _
    have : it.urng1_iterator = xs.length := by omega
    simp [drain, basic_iterator.at_end, hsent, this]
  | succ n ih =>
    intro it hmod hsent hle hn hval
    by_cases hend : it.urng1_iterator = xs.length
    · simp [drain, basic_iterator.at_end, hsent, hend]
    · have hlt : it.urng1_iterator < xs.length := by omega
      obtain ⟨it1, h1, h2, h3, h4, h5, h6, h7⟩ :=
        next_unique_modmer_spec false xs it (by rw [hmod]; exact hm) hsent hlt
      rw [hmod] at h2 h6 h7
      have hrec := ih it1 h2 h3 h5 (by omega) (fun x hx => ⟨(h7 x hx).1, (h7 x hx).2 rfl⟩)
      have hcur := hval _ (List.getElem?_eq_getElem hlt)
      simp only [drain, basic_iterator.at_end, hsent, beq_iff_eq, hend, if_false,
        basic_iterator.incr, h1, hrec, basic_iterator.deref]
      rw [List.drop_eq_getElem_cons hlt, List.filter_cons_of_pos (by simpa using hcur.1), h6,
        hcur.2]

/-- Reading a value-mode view with a nonzero modulus to the end: no fault, and the result is the
in-order list of the values the modulus divides. -/
theorem to_list_spec (v : modmer_view) (hmod : v.mod_used ≠ 0) :
    v.to_list false = .ok (v.urange1.filter (fun x => x % v.mod_used == 0)) := by
  obtain ⟨it, h1, h2, h3, h4, h5, h6⟩ := begin_spec false v hmod
  simp only [modmer_view.to_list, h1]
  rw [drain_spec v.urange1 v.mod_used hmod _ it h2 h3 h4 (by omega)
    (fun x hx => ⟨(h6 x hx).1, (h6 x hx).2 rfl⟩), ← h5]

/-- The adaptor with a modulus other than one builds the view. -/
theorem modmer_fn_of_ne_one (xs : List Nat) (mod_used : Nat) (h : mod_used ≠ 1) :
    modmer_fn xs mod_used = .ok { urange1 := xs, mod_used := mod_used } := by
  have h1 : (mod_used == 1) = false := by rw [beq_eq_false_iff_ne]; exact h
  simp [modmer_fn, h1]

/-- The pipeline with a modulus other than one is the traversal of the view. -/
theorem modmer_of_ne_one (xs : List Nat) (mod_used : Nat) (h : mod_used ≠ 1) :
    modmer xs mod_used = .ok (modmer_view.to_list false { urange1 := xs, mod_used := mod_used }) := by
  simp only [modmer, modmer_fn_of_ne_one xs mod_used h]

/-! ## Claims on the modmer view -/

/-- C1: for every finite input `xs` and every `mod_used ≥ 2`, the pipeline `xs | modmer(mod_used)`
is constructed, is read to the end without a fault, and yields exactly the in-order sublist of
`xs` of the elements `x` with `x % mod_used == 0`, each with its multiplicity. -/
theorem modmer_yields_divisible_sublist (xs : List Nat) (mod_used : Nat) (h : 2 ≤ mod_used) :
    modmer xs mod_used = .ok (.ok (xs.filter (fun x => x % mod_used == 0))) := by
  rw [modmer_of_ne_one xs mod_used (by omega), to_list_spec ⟨xs, mod_used⟩ (by simp only; omega)]

theorem modmer_yields_divisible_sublist_witness :
    2 ≤ 3 ∧ modmer [3, 4, 6, 9, 0, 7, 6] 3 = .ok (.ok [3, 6, 9, 0, 6]) :=
  ⟨by decide, modmer_yields_divisible_sublist [3, 4, 6, 9, 0, 7, 6] 3 (by decide)⟩

/-- C2: for every input and every `mod_used ≥ 2` the pipeline `xs | modmer(mod_used)` produces an
output sequence, and every value `v` of it satisfies `v % mod_used == 0`. -/
theorem modmer_outputs_divisible (xs : List Nat) (mod_used : Nat) (h : 2 ≤ mod_used) :
    ∃ out, modmer xs mod_used = .ok (.ok out) ∧ ∀ v ∈ out, v % mod_used = 0 := by
  refine ⟨xs.filter (fun x => x % mod_used == 0), ?_, ?_⟩
  · rw [modmer_of_ne_one xs mod_used (by omega),
      to_list_spec ⟨xs, mod_used⟩ (by simp only; omega)]
  · intro v hv
    simpa using (List.mem_filter.mp hv).2

theorem modmer_outputs_divisible_witness :
    2 ≤ 4 ∧ ∃ out, modmer [8, 2, 12, 5] 4 = .ok (.ok out) ∧ ∀ v ∈ out, v % 4 = 0 :=
  ⟨by decide, modmer_outputs_divisible [8, 2, 12, 5] 4 (by decide)⟩

/-- C5: the adaptor `modmer_fn` applied to `(range, mod_used)` fails with the invalid-argument
error if and only if `mod_used == 1`; with `mod_used == 1` the result is that error whatever the
range holds, so no element is read for it; for every other `mod_used` the view over the range
is returned. -/
theorem modmer_fn_rejects_exactly_one :
    (∀ xs : List Nat, modmer_fn xs 1 = .error modmer_error) ∧
    (∀ (xs : List Nat) (mod_used : Nat),
      (∃ e, modmer_fn xs mod_used = .error e) ↔ mod_used = 1) ∧
    (∀ (xs : List Nat) (mod_used : Nat),
      modmer_fn xs mod_used = .ok { urange1 := xs, mod_used := mod_used } ↔ mod_used ≠ 1) := by
  refine ⟨fun xs => rfl, fun xs m => ?_, fun xs m => ?_⟩
  · by_cases h : m = 1
    · subst h
      exact ⟨fun _ => rfl, fun _ => ⟨modmer_error, rfl⟩⟩
    · simp [modmer_fn_of_ne_one xs m h, h]
  · by_cases h : m = 1
    · subst h
      simp [modmer_fn]
    · simp [modmer_fn_of_ne_one xs m h, h]

/-- C6: the adaptor accepts `mod_used = 0`, and priming a view with that modulus over a non-empty
range evaluates `*urng1_iterator % mod` with a zero divisor: the construction succeeds and
`begin()` faults, on the input `[1]` and on every non-empty input. -/
theorem modmer_zero_modulus_faults :
    modmer [1] 0 = .ok (.error fault.zero_divisor) ∧
    ∀ (x : Nat) (xs : List Nat), modmer (x :: xs) 0 = .ok (.error fault.zero_divisor) := by
  refine ⟨rfl, fun x xs => ?_⟩
  simp [modmer, modmer_fn, modmer_view.to_list, modmer_view.begin, basic_iterator.mk_begin,
    first_modmer, next_modmer]

/-! ## The leftmost minimum of a span -/

/-- The scan with strict `<` returns the offset of the leftmost minimum: `best_value` at
`best_position` being the leftmost minimum of the values `pre` already seen, the result is the
leftmost minimum of `pre ++ rest`. -/
theorem min_position_from_spec (rest : List Nat) :
    ∀ (pre : List Nat) (bv bp : Nat), bp < pre.length → pre.getD bp 0 = bv →
      (∀ j, j < pre.length → bv ≤ pre.getD j 0) → (∀ j, j < bp → bv < pre.getD j 0) →
      leftmost_min_offset (pre ++ rest) 0 (pre ++ rest).length
        (min_position_from bv bp pre.length rest) := by
  induction rest with
  | nil =>
    intro pre bv bp hbp hbv hmin hleft
    simp only [min_position_from, List.append_nil, leftmost_min_offset, Nat.zero_add]
    exact ⟨hbp, fun j hj => hbv ▸ hmin j hj, fun j hj => hbv ▸ hleft j hj⟩
  | cons x rest ih =>
    intro pre bv bp hbp hbv hmin hleft
    have hlen : (pre ++ [x]).length = pre.length + 1 := by simp
    have hx : (pre ++ [x]).getD pre.length 0 = x := by
      rw [List.getD_append_right _ _ _ _ (Nat.le_refl _)]; simp
    have hold : ∀ j, j < pre.length → (pre ++ [x]).getD j 0 = pre.getD j 0 :=
      fun j hj => List.getD_append _ _ _ _ hj
    have happ : pre ++ x :: rest = (pre ++ [x]) ++ rest := by simp
    simp only [min_position_from]
    split
    · rename_i hlt
      have := ih (pre ++ [x]) x pre.length (by omega) hx
        (fun j hj => by
          rcases Nat.lt_or_ge j pre.length with h | h
          · rw [hold j h]; exact Nat.le_of_lt (Nat.lt_of_lt_of_le hlt (hmin j h))
          · have : j = pre.length := by omega
            rw [this, hx])
        (fun j hj => by rw [hold j hj]; exact Nat.lt_of_lt_of_le hlt (hmin j hj))
      rw [hlen] at this
      rw [happ]
      exact this
    · rename_i hge
      have := ih (pre ++ [x]) bv bp (by omega) (by rw [hold bp hbp]; exact hbv)
        (fun j hj => by
          rcases Nat.lt_or_ge j pre.length with h | h
          · rw [hold j h]; exact hmin j h
          · have : j = pre.length := by omega
            rw [this, hx]; omega)
        (fun j hj => by rw [hold j (by omega)]; exact hleft j hj)
      rw [hlen] at this
      rw [happ]
      exact this

/-- On a non-empty span `min_position` is the offset of the leftmost minimum. -/
theorem min_position_spec (window : List Nat) (h : window ≠ []) :
    leftmost_min_offset window 0 window.length (min_position window) := by
  cases window with
  | nil => exact absurd rfl h
  | cons x rest =>
    have := min_position_from_spec rest [x] x 0 (by simp) (by simp)
      (fun j hj => by
        have : j = 0 := by simpa using hj
        subst this; simp)
      (fun j hj => by omega)
    simpa [min_position] using this

/-- A span has at most one leftmost minimum. -/
theorem leftmost_min_offset_unique (S : List Nat) (i w p q : Nat)
    (hp : leftmost_min_offset S i w p) (hq : leftmost_min_offset S i w q) : p = q := by
  obtain ⟨hp1, hp2, hp3⟩ := hp
  obtain ⟨hq1, hq2, hq3⟩ := hq
  rcases Nat.lt_trichotomy p q with h | h | h
  · have h1 := hq3 p h
    have h2 := hp2 q hq1
    omega
  · exact h
  · have h1 := hp3 q h
    have h2 := hq2 p hp1
    omega

/-- On a non-empty span `min_position` returns `p` exactly when `p` is the leftmost minimum. -/
theorem min_position_eq_iff (window : List Nat) (h : window ≠ []) (p : Nat) :
    min_position window = p ↔ leftmost_min_offset window 0 window.length p := by
  constructor
  · intro hp
    rw [← hp]
    exact min_position_spec window h
  · intro hp
    exact leftmost_min_offset_unique window 0 window.length _ _ (min_position_spec window h) hp

/-- The leftmost minimum of the span cut out by `take` is the one of the first `w` values. -/
theorem leftmost_min_offset_take (S : List Nat) (w p : Nat) (hw : w ≤ S.length) :
    leftmost_min_offset (S.take w) 0 (S.take w).length p ↔ leftmost_min_offset S 0 w p := by
  have hlen : (S.take w).length = w := by simp [hw]
  have hget : ∀ j, j < w → (S.take w).getD j 0 = S.getD j 0 := by
    intro j hj
    rw [List.getD_eq_getElem?_getD, List.getD_eq_getElem?_getD, List.getElem?_take_of_lt hj]
  rw [hlen]
  simp only [leftmost_min_offset, Nat.zero_add]
  constructor
  · rintro ⟨h1, h2, h3⟩
    refine ⟨h1, fun j hj => ?_, fun j hj => ?_⟩
    · rw [← hget p h1, ← hget j hj]; exact h2 j hj
    · rw [← hget p h1, ← hget j (by omega)]; exact h3 j hj
  · rintro ⟨h1, h2, h3⟩
    refine ⟨h1, fun j hj => ?_, fun j hj => ?_⟩
    · rw [hget p h1, hget j hj]; exact h2 j hj
    · rw [hget p h1, hget j (by omega)]; exact h3 j hj

/-- Spans of a list with one more value in front are the spans one index further. -/
theorem leftmost_min_offset_cons (s : Nat) (S : List Nat) (i w p : Nat) :
    leftmost_min_offset (s :: S) (i + 1) w p ↔ leftmost_min_offset S i w p := by
  have hget : ∀ j, (s :: S).getD (i + 1 + j) 0 = S.getD (i + j) 0 := by
    intro j
    rw [show i + 1 + j = (i + j) + 1 by omega, List.getD_cons_succ]
  simp only [leftmost_min_offset, hget]

/-- The boundary test on a span of `w ≥ 1` values at the front of `S`. -/
theorem is_syncmer_take_iff (o : Bool) (S : List Nat) (w : Nat) (hw : 0 < w)
    (hlen : w ≤ S.length) :
    is_syncmer o (S.take w) = true ↔
      leftmost_min_offset S 0 w 0 ∨ (o = false ∧ leftmost_min_offset S 0 w (w - 1)) := by
  have hl : (S.take w).length = w := by simp [hlen]
  have hne : S.take w ≠ [] := by
    intro h
    rw [h] at hl
    simp at hl
    omega
  rw [← leftmost_min_offset_take S w 0 hlen, ← leftmost_min_offset_take S w (w - 1) hlen,
    ← min_position_eq_iff _ hne, ← min_position_eq_iff _ hne]
  simp only [is_syncmer, hl, Bool.or_eq_true, Bool.and_eq_true, beq_iff_eq, Bool.not_eq_true']
  constructor
  · rintro (h | ⟨h1, h2⟩)
    · exact Or.inl h
    · exact Or.inr ⟨h1, by omega⟩
  · rintro (h | ⟨h1, h2⟩)
    · exact Or.inl h
    · exact Or.inr ⟨h1, by omega⟩

/-! ## The hash sequences -/

/-- A text of length `n` has `n + 1 - k` windows of size `k`. -/
theorem kmer_hash_length (k : Nat) (text : List dna4) :
    (kmer_hash k text).length = text.length + 1 - k := by
  induction text with
  | nil =>
    simp only [kmer_hash]
    split
    · simp; omega
    · simp; omega
  | cons c t ih =>
    simp only [kmer_hash]
    split
    · rename_i h
      simp only [List.length_cons, ih] at h ⊢
      omega
    · rename_i h
      simp only [List.length_cons, List.length_nil] at h ⊢
      omega

/-- A text shorter than `k` has no window of size `k`. -/
theorem kmer_hash_of_short (k : Nat) (text : List dna4) (h : text.length < k) :
    kmer_hash k text = [] := by
  apply List.eq_nil_of_length_eq_zero
  rw [kmer_hash_length]
  omega

/-! ## The selector -/

theorem syncmer_view_nil_right (o : Bool) (S : List Nat) (w : Nat) :
    syncmer_view o S [] w = [] := by
  cases S <;> simp [syncmer_view]

/-- With fewer than `width` s-mer values the selector emits nothing. -/
theorem syncmer_view_of_short (o : Bool) (S K : List Nat) (w : Nat) (h : S.length < w) :
    syncmer_view o S K w = [] := by
  cases S with
  | nil => simp [syncmer_view]
  | cons s S =>
    cases K with
    | nil => simp [syncmer_view]
    | cons k K => simp only [syncmer_view, h, if_true]

/-- The selector emits, in order, the k-mer values at the indices whose span has its leftmost
minimum at the first offset or, when closed, at the last offset. -/
theorem syncmer_view_eq_filter (o : Bool) (w : Nat) (hw : 0 < w) :
    ∀ (K S : List Nat), (K ≠ [] → K.length + w ≤ S.length + 1) →
      syncmer_view o S K w =
        ((List.range K.length).filter (fun i => decide (leftmost_min_offset S i w 0 ∨
          (o = false ∧ leftmost_min_offset S i w (w - 1))))).map (fun i => K.getD i 0) := by
  intro K
  induction K with
  | nil => intro S _; simp [syncmer_view_nil_right]
  | cons k K ih =>
    intro S hS
    have hS1 := hS (by simp)
    cases S with
    | nil => simp at hS1; omega
    | cons s S =>
      have hlen : w ≤ (s :: S).length := by simp at hS1 ⊢; omega
      have hrec := ih S (fun hK => by
        have : 0 < K.length := List.length_pos.mpr hK
        simp at hS1
        omega)
      have hshift : ((fun i => decide (leftmost_min_offset (s :: S) i w 0 ∨
          (o = false ∧ leftmost_min_offset (s :: S) i w (w - 1)))) ∘ Nat.succ) =
          (fun i => decide (leftmost_min_offset S i w 0 ∨
          (o = false ∧ leftmost_min_offset S i w (w - 1)))) := by
        funext i
        simp only [Function.comp, Nat.succ_eq_add_one, leftmost_min_offset_cons]
      have hmap : ((fun i => (k :: K).getD i 0) ∘ Nat.succ) = (fun i => K.getD i 0) := by
        funext i
        simp only [Function.comp, Nat.succ_eq_add_one, List.getD_cons_succ]
      rw [List.length_cons, List.range_succ_eq_map, List.filter_cons, List.filter_map, hshift]
      have hnot : ¬ (s :: S).length < w := by omega
      simp only [syncmer_view, hnot, if_false]
      by_cases hsel : is_syncmer o ((s :: S).take w) = true
      · have hdec := (is_syncmer_take_iff o (s :: S) w hw hlen).mp hsel
        rw [if_pos hsel, if_pos (decide_eq_true hdec), List.map_cons, List.map_map, hmap, hrec]
        rfl
      · have hdec : ¬ (leftmost_min_offset (s :: S) 0 w 0 ∨
            (o = false ∧ leftmost_min_offset (s :: S) 0 w (w - 1))) :=
          fun h => hsel ((is_syncmer_take_iff o (s :: S) w hw hlen).mpr h)
        rw [if_neg hsel, if_neg (by simpa using hdec), List.map_map, hmap, hrec]

/-! ## Restricting the text -/

theorem kmer_hash_cons (k : Nat) (c : dna4) (t : List dna4) :
    kmer_hash k (c :: t) =
      if k ≤ (c :: t).length then hash_window ((c :: t).take k) :: kmer_hash k t else [] := rfl

theorem syncmer_view_cons_cons (o : Bool) (s k : Nat) (S K : List Nat) (w : Nat) :
    syncmer_view o (s :: S) (k :: K) w =
      if (s :: S).length < w then []
      else if is_syncmer o ((s :: S).take w) then k :: syncmer_view o S K w
      else syncmer_view o S K w := rfl

/-- The hash sequence of a text is an initial segment of the hash sequence of any
continuation of it. -/
theorem kmer_hash_append_left (k : Nat) (t1 t2 : List dna4) :
    kmer_hash k t1 <+: kmer_hash k (t1 ++ t2) := by
  induction t1 with
  | nil =>
    cases t2 with
    | nil => exact List.prefix_refl _
    | cons c t =>
      by_cases hk : k ≤ 0
      · have hk0 : k = 0 := by omega
        subst hk0
        simp [kmer_hash]
      · simp [kmer_hash, hk]
  | cons c t1 ih =>
    by_cases hk : k ≤ (c :: t1).length
    · have hk2 : k ≤ (c :: (t1 ++ t2)).length := by
        simp only [List.length_cons, List.length_append] at hk ⊢
        omega
      have htake : ((c :: t1) ++ t2).take k = (c :: t1).take k :=
        List.take_append_of_le_length hk
      rw [List.cons_append] at htake
      rw [List.cons_append, kmer_hash_cons, kmer_hash_cons, if_pos hk, if_pos hk2, htake]
      exact (List.prefix_cons_inj _).mpr ih
    · rw [kmer_hash_cons, if_neg hk]
      exact List.nil_prefix

/-- The hash sequence of a text with a part put in front of it is the hash sequence of the
whole with as many values dropped as symbols were put in front. -/
theorem kmer_hash_append_right (k : Nat) (t1 t2 : List dna4) :
    kmer_hash k t2 = (kmer_hash k (t1 ++ t2)).drop t1.length := by
  induction t1 with
  | nil => simp
  | cons c t1 ih =>
    by_cases hk : k ≤ (c :: (t1 ++ t2)).length
    · rw [List.cons_append, kmer_hash_cons, if_pos hk, List.length_cons, List.drop_succ_cons]
      exact ih
    · rw [List.cons_append, kmer_hash_cons, if_neg hk, List.drop_nil]
      apply kmer_hash_of_short
      simp only [List.length_cons, List.length_append] at hk
      omega

/-- The selector over initial segments of both sequences emits an initial segment. -/
theorem syncmer_view_append (o : Bool) (w : Nat) :
    ∀ (S K t u : List Nat), syncmer_view o S K w <+: syncmer_view o (S ++ t) (K ++ u) w := by
  intro S
  induction S with
  | nil => intro K t u; simp [syncmer_view]
  | cons s S ih =>
    intro K t u
    cases K with
    | nil => simp [syncmer_view]
    | cons k K =>
      by_cases hshort : (s :: S).length < w
      · rw [syncmer_view_cons_cons, if_pos hshort]
        exact List.nil_prefix
      · have hlong : ¬ (s :: (S ++ t)).length < w := by
          simp only [List.length_cons, List.length_append] at hshort ⊢
          omega
        have htake : ((s :: S) ++ t).take w = (s :: S).take w :=
          List.take_append_of_le_length (by omega)
        rw [List.cons_append] at htake
        rw [List.cons_append, List.cons_append, syncmer_view_cons_cons, syncmer_view_cons_cons,
          if_neg hshort, if_neg hlong, htake]
        split
        · exact (List.prefix_cons_inj _).mpr (ih K t u)
        · exact ih K t u

/-- The selector over both sequences with the same number of leading values dropped emits a
final segment. -/
theorem syncmer_view_drop (o : Bool) (w : Nat) :
    ∀ (n : Nat) (S K : List Nat),
      syncmer_view o (S.drop n) (K.drop n) w <:+ syncmer_view o S K w := by
  intro n
  induction n with
  | zero => intro S K; exact List.suffix_refl _
  | succ n ih =>
    intro S K
    cases S with
    | nil => simp [syncmer_view]
    | cons s S =>
      cases K with
      | nil => simp [syncmer_view_nil_right]
      | cons k K =>
        simp only [List.drop_succ_cons]
        by_cases hshort : (s :: S).length < w
        · rw [syncmer_view_of_short o (S.drop n) (K.drop n) w
            (by simp only [List.length_drop, List.length_cons] at hshort ⊢; omega)]
          exact List.nil_suffix
        · rw [syncmer_view_cons_cons, if_neg hshort]
          split
          · exact (ih S K).trans (List.suffix_cons _ _)
          · exact ih S K

/-- The syncmers of the first `n` symbols are an initial segment of the syncmers of the text. -/
theorem syncmer_take (o : Bool) (s k : Nat) (text : List dna4) (n : Nat) :
    syncmer o s k (text.take n) <+: syncmer o s k text := by
  obtain ⟨t, ht⟩ := kmer_hash_append_left s (text.take n) (text.drop n)
  obtain ⟨u, hu⟩ := kmer_hash_append_left k (text.take n) (text.drop n)
  rw [List.take_append_drop] at ht hu
  unfold syncmer
  rw [← ht, ← hu]
  exact syncmer_view_append o _ _ _ t u

/-- The syncmers of the text without its first `n` symbols are a final segment of the syncmers
of the text. -/
theorem syncmer_drop (o : Bool) (s k : Nat) (text : List dna4) (n : Nat) :
    syncmer o s k (text.drop n) <:+ syncmer o s k text := by
  have hs := kmer_hash_append_right s (text.take n) (text.drop n)
  have hk := kmer_hash_append_right k (text.take n) (text.drop n)
  rw [List.take_append_drop] at hs hk
  unfold syncmer
  rw [hs, hk]
  exact syncmer_view_drop o _ _ _ _

/-- The selector emits a subsequence of the k-mer hash sequence. -/
theorem syncmer_view_sublist (o : Bool) (w : Nat) :
    ∀ (S K : List Nat), List.Sublist (syncmer_view o S K w) K := by
  intro S
  induction S with
  | nil => intro K; simp [syncmer_view]
  | cons s S ih =>
    intro K
    cases K with
    | nil => simp [syncmer_view]
    | cons k K =>
      rw [syncmer_view_cons_cons]
      split
      · exact List.nil_sublist _
      · split
        · exact (ih K).cons₂ k
        · exact (ih K).cons k

/-- C3: for sizes `s < k` and every text, with `S` the s-mer hashes, `K` the k-mer hashes and
`w = k - s + 1`, the closed syncmer output is exactly the list, in order of `i`, of the values
`K[i]` whose span `S[i], ..., S[i + w - 1]` has its leftmost minimum at offset `0` or at offset
`w - 1`; every such span lies within `S`. -/
theorem closed_syncmer_selects_boundary_minima (text : List dna4) (s k : Nat) (h : s < k) :
    syncmer false s k text =
      ((List.range (kmer_hash k text).length).filter (fun i =>
        decide (leftmost_min_offset (kmer_hash s text) i (k - s + 1) 0 ∨
          leftmost_min_offset (kmer_hash s text) i (k - s + 1) (k - s)))).map
        (fun i => (kmer_hash k text).getD i 0) ∧
    ∀ i, i < (kmer_hash k text).length → i + (k - s + 1) ≤ (kmer_hash s text).length := by
  have hspan : ∀ i, i < (kmer_hash k text).length →
      i + (k - s + 1) ≤ (kmer_hash s text).length := by
    intro i hi
    simp only [kmer_hash_length] at hi ⊢
    omega
  refine ⟨?_, hspan⟩
  unfold syncmer
  rw [syncmer_view_eq_filter false (k - s + 1) (by omega) _ _ (fun hK => by
    have hpos := hspan 0 (List.length_pos.mpr hK)
    simp only [kmer_hash_length] at hpos ⊢
    omega)]
  simp

theorem closed_syncmer_selects_boundary_minima_witness :
    2 < 5 ∧
    ((List.range (kmer_hash 5 text3).length).filter (fun i =>
        decide (leftmost_min_offset (kmer_hash 2 text3) i (5 - 2 + 1) 0 ∨
          leftmost_min_offset (kmer_hash 2 text3) i (5 - 2 + 1) (5 - 2)))).map
        (fun i => (kmer_hash 5 text3).getD i 0) = [105, 422, 609, 111, 447, 764, 1010] :=
  ⟨by decide, (closed_syncmer_selects_boundary_minima text3 2 5 (by decide)).1.symm.trans
    (by decide)⟩

/-- C4: for sizes `s < k` and every text, with `S` the s-mer hashes, `K` the k-mer hashes and
`w = k - s + 1`, the open syncmer output is exactly the list, in order of `i`, of the values
`K[i]` whose span has its leftmost minimum at offset `0`, that is `S[i] ≤ S[i + j]` for every
`j < w`. -/
theorem open_syncmer_selects_first_minima (text : List dna4) (s k : Nat) (h : s < k) :
    syncmer true s k text =
      ((List.range (kmer_hash k text).length).filter (fun i =>
        decide (leftmost_min_offset (kmer_hash s text) i (k - s + 1) 0))).map
        (fun i => (kmer_hash k text).getD i 0) ∧
    ∀ i, leftmost_min_offset (kmer_hash s text) i (k - s + 1) 0 ↔
      ∀ j, j < k - s + 1 → (kmer_hash s text).getD i 0 ≤ (kmer_hash s text).getD (i + j) 0 := by
  constructor
  · unfold syncmer
    rw [syncmer_view_eq_filter true (k - s + 1) (by omega) _ _ (fun hK => by
      have hpos := List.length_pos.mpr hK
      simp only [kmer_hash_length] at hpos ⊢
      omega)]
    simp
  · intro i
    simp only [leftmost_min_offset, Nat.add_zero]
    constructor
    · rintro ⟨-, h2, -⟩
      exact h2
    · intro h2
      exact ⟨by omega, h2, fun j hj => by omega⟩

theorem open_syncmer_selects_first_minima_witness :
    2 < 5 ∧
    ((List.range (kmer_hash 5 text3).length).filter (fun i =>
        decide (leftmost_min_offset (kmer_hash 2 text3) i (5 - 2 + 1) 0))).map
        (fun i => (kmer_hash 5 text3).getD i 0) = [105, 422, 111, 447, 764] :=
  ⟨by decide, (open_syncmer_selects_first_minima text3 2 5 (by decide)).1.symm.trans
    (by decide)⟩

/-- C10: syncmer selection commutes with restricting the text: for every text, sizes `s < k`
and `n`, in closed and in open mode, the output on the first `n` symbols is an initial segment
of the output on the text, and the output on the text without its first `n` symbols is a final
segment of it. -/
theorem syncmer_restriction (text : List dna4) (s k n : Nat) (_h : s < k) :
    (syncmer false s k (text.take n) <+: syncmer false s k text ∧
      syncmer true s k (text.take n) <+: syncmer true s k text) ∧
    (syncmer false s k (text.drop n) <:+ syncmer false s k text ∧
      syncmer true s k (text.drop n) <:+ syncmer true s k text) :=
  ⟨⟨syncmer_take false s k text n, syncmer_take true s k text n⟩,
    ⟨syncmer_drop false s k text n, syncmer_drop true s k text n⟩⟩

theorem syncmer_restriction_witness :
    2 < 5 ∧
    text3.takeWhile (fun x => x != dna4.T) = text3.take 9 ∧
    syncmer false 2 5 (text3.take 9) = [105, 422, 609] ∧
    syncmer true 2 5 (text3.take 9) = [105, 422] ∧
    syncmer false 2 5 (text3.drop 6) = [111, 447, 764, 1010] ∧
    syncmer true 2 5 (text3.drop 6) = [111, 447, 764] ∧
    ([105, 422, 609] <+: syncmer false 2 5 text3 ∧ [105, 422] <+: syncmer true 2 5 text3) ∧
    ([111, 447, 764, 1010] <:+ syncmer false 2 5 text3 ∧
      [111, 447, 764] <:+ syncmer true 2 5 text3) :=
  ⟨by decide, by decide, by decide, by decide, by decide, by decide,
    (syncmer_restriction text3 2 5 9 (by decide)).1,
    (syncmer_restriction text3 2 5 6 (by decide)).2⟩

/-! ## The hash source under a shape -/

/-- Under an ungapped shape every symbol of the window enters the hash. -/
theorem hash_shape_ungapped (k : Nat) (window : List dna4) (h : window.length ≤ k) :
    hash_shape (ungapped k) window = hash_window window := by
  unfold hash_shape hash_window ungapped
  generalize (0 : Nat) = acc
  induction window generalizing k acc with
  | nil => simp
  | cons c t ih =>
    cases k with
    | zero => simp at h
    | succ k =>
      simp only [List.replicate_succ, List.zip_cons_cons, List.foldl_cons, if_true]
      exact ih k (by simpa using h) _

/-- The hash sequence under the ungapped shape of size `k` is the k-mer hash sequence. -/
theorem kmer_hash_shape_ungapped (k : Nat) (text : List dna4) :
    kmer_hash_shape (ungapped k) text = kmer_hash k text := by
  have hk : (ungapped k).length = k := by simp [ungapped]
  induction text with
  | nil =>
    simp only [kmer_hash_shape, kmer_hash, hk]
    rw [hash_shape_ungapped k [] (Nat.zero_le _)]
  | cons c t ih =>
    simp only [kmer_hash_shape, kmer_hash, hk, ih]
    rw [hash_shape_ungapped k _ (by simp)]

/-! ## The adaptors -/

/-- For a window bound other than one the adaptor hands the skewed hash sequence and both
bounds to the selector. -/
theorem minstrobe_hash_of_ne_one {β : Type} (sel : List Nat → Nat → Nat → β)
    (urange : List dna4) (sh : shape) (w_min w_max seed : Nat) (h : w_max ≠ 1) :
    minstrobe_hash sel urange sh w_min w_max seed =
      .ok (sel ((kmer_hash_shape sh urange).map (fun i => i ^^^ seed)) w_min w_max) := by
  have h1 : (w_max == 1) = false := by rw [beq_eq_false_iff_ne]; exact h
  simp [minstrobe_hash, h1]

/-- With the k-mer size one the adaptor throws. -/
theorem syncmer_hash_of_one (text : List dna4) (s seed : Nat) :
    syncmer_hash text s 1 seed = .error syncmer_hash_error := rfl

/-! ## The adaptors with the constructors they run -/

/-- A shape within the limit of the hash source: the hash view is constructed and read. -/
theorem kmer_hash_view_of_le (sh : shape) (urange : List dna4)
    (h : List.count true sh ≤ max_shape_count) :
    kmer_hash_view sh urange = .ok (kmer_hash_shape sh urange) := by
  simp [kmer_hash_view, Nat.not_lt.mpr h]

/-- A shape beyond the limit of the hash source: the constructor of the hash view throws. -/
theorem kmer_hash_view_of_lt (sh : shape) (urange : List dna4)
    (h : max_shape_count < List.count true sh) :
    kmer_hash_view sh urange = .error kmer_hash_view_error := by
  simp [kmer_hash_view, h]

/-- The ungapped shape of size `k` has `k` set positions. -/
theorem count_ungapped (k : Nat) : List.count true (ungapped k) = k := by
  simp [ungapped]

/-- With a k-mer size other than one and both sizes within the limit of the hash source, the
call is the call of the selector's constructor on both skewed hash sequences and the width. -/
theorem syncmer_hash_fn_of_le {β : Type} (sel : List Nat → List Nat → Nat → Except String β)
    (text : List dna4) (s k seed : Nat) (h : k ≠ 1) (hs : s ≤ max_shape_count)
    (hk : k ≤ max_shape_count) :
    syncmer_hash_fn sel text s k seed =
      sel ((kmer_hash s text).map (fun i => i ^^^ seed))
        ((kmer_hash k text).map (fun i => i ^^^ seed)) (syncmer_width s k) := by
  have h1 : (k == 1) = false := by rw [beq_eq_false_iff_ne]; exact h
  simp only [syncmer_hash_fn, h1, Bool.false_eq_true, if_false]
  rw [kmer_hash_view_of_le _ _ (by rw [count_ungapped]; exact hs),
    kmer_hash_view_of_le _ _ (by rw [count_ungapped]; exact hk)]
  simp only [kmer_hash_shape_ungapped]

/-- With a k-mer size other than one and a size beyond the limit of the hash source, the call
fails with the error of the hash view. -/
theorem syncmer_hash_fn_of_lt {β : Type} (sel : List Nat → List Nat → Nat → Except String β)
    (text : List dna4) (s k seed : Nat) (h : k ≠ 1)
    (hlt : max_shape_count < s ∨ max_shape_count < k) :
    syncmer_hash_fn sel text s k seed = .error kmer_hash_view_error := by
  have h1 : (k == 1) = false := by rw [beq_eq_false_iff_ne]; exact h
  simp only [syncmer_hash_fn, h1, Bool.false_eq_true, if_false]
  by_cases hs : max_shape_count < s
  · rw [kmer_hash_view_of_lt _ _ (by rw [count_ungapped]; exact hs)]
  · rw [kmer_hash_view_of_le _ _ (by rw [count_ungapped]; omega)]
    have hk : max_shape_count < k := by
      cases hlt with
      | inl h => exact absurd h hs
      | inr h => exact h
    simp only
    rw [kmer_hash_view_of_lt _ _ (by rw [count_ungapped]; exact hk)]

/-- With a window bound other than one and a shape within the limit of the hash source, the
call is the call of the selector's constructor on the skewed hash sequence and both bounds. -/
theorem minstrobe_hash_fn_of_le {β : Type} (sel : List Nat → Nat → Nat → Except String β)
    (urange : List dna4) (sh : shape) (w_min w_max seed : Nat) (h : w_max ≠ 1)
    (hsh : List.count true sh ≤ max_shape_count) :
    minstrobe_hash_fn sel urange sh w_min w_max seed =
      sel ((kmer_hash_shape sh urange).map (fun i => i ^^^ seed)) w_min w_max := by
  have h1 : (w_max == 1) = false := by rw [beq_eq_false_iff_ne]; exact h
  simp only [minstrobe_hash_fn, h1, Bool.false_eq_true, if_false]
  rw [kmer_hash_view_of_le _ _ hsh]

/-- With a window bound other than one and a shape beyond the limit of the hash source, the
call fails with the error of the hash view. -/
theorem minstrobe_hash_fn_of_lt {β : Type} (sel : List Nat → Nat → Nat → Except String β)
    (urange : List dna4) (sh : shape) (w_min w_max seed : Nat) (h : w_max ≠ 1)
    (hsh : max_shape_count < List.count true sh) :
    minstrobe_hash_fn sel urange sh w_min w_max seed = .error kmer_hash_view_error := by
  have h1 : (w_max == 1) = false := by rw [beq_eq_false_iff_ne]; exact h
  simp only [minstrobe_hash_fn, h1, Bool.false_eq_true, if_false]
  rw [kmer_hash_view_of_lt _ _ hsh]

/-- With the window bound one the call throws its own error, whatever the other arguments
are. -/
theorem minstrobe_hash_fn_of_one {β : Type} (sel : List Nat → Nat → Nat → Except String β)
    (urange : List dna4) (sh : shape) (w_min seed : Nat) :
    minstrobe_hash_fn sel urange sh w_min 1 seed = .error minstrobe_hash_error := rfl

/-- Within the limit of the hash source, and with a selector constructor that does not throw,
the call is `minstrobe_hash`. -/
theorem minstrobe_hash_fn_eq_minstrobe_hash {β : Type} (sel : List Nat → Nat → Nat → β)
    (urange : List dna4) (sh : shape) (w_min w_max seed : Nat)
    (hsh : List.count true sh ≤ max_shape_count) :
    minstrobe_hash_fn (fun a b c => .ok (sel a b c)) urange sh w_min w_max seed =
      minstrobe_hash sel urange sh w_min w_max seed := by
  by_cases h : w_max = 1
  · subst h
    rfl
  · rw [minstrobe_hash_fn_of_le _ urange sh w_min w_max seed h hsh,
      minstrobe_hash_of_ne_one sel urange sh w_min w_max seed h]

/-! ## Claims on the adaptors -/

/-- C11, the claim fails: with `kmer_size = 33`, which is not one and fits a shape,
`syncmer_hash` over `dna4` fails with an invalid-argument error, the one the constructor of the
hash view throws for a shape of more than 32 positions; so it does with `smer_size = 33` and
`kmer_size = 40`. The selector here is the closed one, with a constructor that does not
throw. -/
theorem syncmer_hash_rejects_large_sizes :
    ((33 : Nat) ≠ 1 ∧ 2 ≤ shape_capacity ∧ 33 ≤ shape_capacity ∧
      syncmer_hash_fn (fun a b w => .ok (syncmer_view false a b w)) text3 2 33 0 =
        .error kmer_hash_view_error) ∧
    ((40 : Nat) ≠ 1 ∧ 33 ≤ shape_capacity ∧ 40 ≤ shape_capacity ∧
      syncmer_hash_fn (fun a b w => .ok (syncmer_view false a b w)) text3 33 40 0 =
        .error kmer_hash_view_error) :=
  ⟨⟨by decide, by decide, by decide,
      syncmer_hash_fn_of_lt _ text3 2 33 0 (by decide) (Or.inr (by decide))⟩,
    ⟨by decide, by decide, by decide,
      syncmer_hash_fn_of_lt _ text3 33 40 0 (by decide) (Or.inl (by decide))⟩⟩

/-- C11, amended: for sizes a shape can hold, `syncmer_hash` applied to
`(range, smer_size, kmer_size, seed)` fails with an invalid-argument error if and only if
`kmer_size == 1`, or one of the two sizes exceeds the 32 positions the hash source accepts over
`dna4`, or the constructor of the syncmer selector fails on the two skewed hash sequences and
the width. With `kmer_size == 1` it is the adaptor's own error, whatever the range, the s-mer
size, the seed and the selector are: it is raised before a hash view is built, a hash value
computed or an output produced. With another `kmer_size` and a size beyond the limit it is the
error of the hash view, raised before the selector is constructed; in every other case the call
is the call of the selector's constructor. -/
theorem syncmer_hash_fails_iff_one_or_large {β : Type}
    (sel : List Nat → List Nat → Nat → Except String β) (text : List dna4) (s k seed : Nat)
    (_hs : s ≤ shape_capacity) (_hk : k ≤ shape_capacity) :
    ((∃ e, syncmer_hash_fn sel text s k seed = .error e) ↔
      (k = 1 ∨ max_shape_count < s ∨ max_shape_count < k ∨
        ∃ e, sel ((kmer_hash s text).map (fun i => i ^^^ seed))
          ((kmer_hash k text).map (fun i => i ^^^ seed)) (syncmer_width s k) = .error e)) ∧
    (k = 1 → syncmer_hash_fn sel text s k seed = .error syncmer_hash_error) ∧
    (k ≠ 1 → (max_shape_count < s ∨ max_shape_count < k) →
      syncmer_hash_fn sel text s k seed = .error kmer_hash_view_error) ∧
    (k ≠ 1 → s ≤ max_shape_count → k ≤ max_shape_count →
      syncmer_hash_fn sel text s k seed =
        sel ((kmer_hash s text).map (fun i => i ^^^ seed))
          ((kmer_hash k text).map (fun i => i ^^^ seed)) (syncmer_width s k)) := by
  refine ⟨?_, fun h => by subst h; rfl, fun h hlt => syncmer_hash_fn_of_lt sel text s k seed h hlt,
    fun h hs hk => syncmer_hash_fn_of_le sel text s k seed h hs hk⟩
  by_cases h : k = 1
  · subst h
    exact ⟨fun _ => Or.inl rfl, fun _ => ⟨syncmer_hash_error, rfl⟩⟩
  · by_cases hlt : max_shape_count < s ∨ max_shape_count < k
    · refine ⟨fun _ => ?_, fun _ => ⟨_, syncmer_hash_fn_of_lt sel text s k seed h hlt⟩⟩
      cases hlt with
      | inl h1 => exact Or.inr (Or.inl h1)
      | inr h2 => exact Or.inr (Or.inr (Or.inl h2))
    · have hs : s ≤ max_shape_count := by omega
      have hk : k ≤ max_shape_count := by omega
      rw [syncmer_hash_fn_of_le sel text s k seed h hs hk]
      constructor
      · intro he
        exact Or.inr (Or.inr (Or.inr he))
      · intro hor
        rcases hor with h1 | h2 | h3 | h4
        · exact absurd h1 h
        · omega
        · omega
        · exact h4

theorem syncmer_hash_fails_iff_one_or_large_witness :
    (40 ≤ shape_capacity ∧ 1 ≤ shape_capacity) ∧
    ((∃ e, syncmer_hash_fn (fun a b w => .ok (syncmer_view false a b w)) text3 40 1 0 =
        .error e) ↔
      (1 = 1 ∨ max_shape_count < 40 ∨ max_shape_count < 1 ∨
        ∃ e, (.ok (syncmer_view false ((kmer_hash 40 text3).map (fun i => i ^^^ 0))
          ((kmer_hash 1 text3).map (fun i => i ^^^ 0)) (syncmer_width 40 1)) :
            Except String (List Nat)) = .error e)) ∧
    (1 = 1 → syncmer_hash_fn (fun a b w => .ok (syncmer_view false a b w)) text3 40 1 0 =
      .error syncmer_hash_error) ∧
    (1 ≠ 1 → (max_shape_count < 40 ∨ max_shape_count < 1) →
      syncmer_hash_fn (fun a b w => .ok (syncmer_view false a b w)) text3 40 1 0 =
        .error kmer_hash_view_error) ∧
    (1 ≠ 1 → 40 ≤ max_shape_count → 1 ≤ max_shape_count →
      syncmer_hash_fn (fun a b w => .ok (syncmer_view false a b w)) text3 40 1 0 =
        .ok (syncmer_view false ((kmer_hash 40 text3).map (fun i => i ^^^ 0))
          ((kmer_hash 1 text3).map (fun i => i ^^^ 0)) (syncmer_width 40 1))) :=
  ⟨⟨by decide, by decide⟩,
    syncmer_hash_fails_iff_one_or_large (fun a b w => .ok (syncmer_view false a b w)) text3 40 1 0
      (by decide) (by decide)⟩

/-- C13, the claim fails: with `w_max = 5`, which is not one, and the ungapped shape of 33
positions, `minstrobe_hash` over `dna4` fails with an invalid-argument error, the one the
constructor of the hash view throws for a shape of more than 32 set positions. The selector here
has a constructor that does not throw. -/
theorem minstrobe_hash_rejects_large_shape :
    (5 : Nat) ≠ 1 ∧ (ungapped 33).length ≤ shape_capacity ∧
    minstrobe_hash_fn (fun a b c => .ok (minstrobe_view (fun x y => x ^^^ y) a b c)) text3
      (ungapped 33) 2 5 0 = .error kmer_hash_view_error :=
  ⟨by decide, by decide,
    minstrobe_hash_fn_of_lt _ text3 (ungapped 33) 2 5 0 (by decide) (by decide)⟩

/-- C13, amended: `minstrobe_hash` applied to `(range, shape, w_min, w_max, seed)` fails with an
invalid-argument error if and only if `w_max == 1`, or the shape has more than the 32 set
positions the hash source accepts over `dna4`, or the constructor of the minstrobe selector
fails on the skewed hash sequence and the two bounds. With `w_max == 1` it is the adaptor's own
error, whatever the range, the shape, `w_min`, the seed and the selector are: it is raised
before the hash view is built, a hash value computed or an output produced. With another `w_max`
and a shape beyond the limit it is the error of the hash view, raised before the selector is
constructed; in every other case the call is the call of the selector's constructor. -/
theorem minstrobe_hash_fails_iff_one_or_large {β : Type}
    (sel : List Nat → Nat → Nat → Except String β) (urange : List dna4) (sh : shape)
    (w_min w_max seed : Nat) (_hsh : sh.length ≤ shape_capacity) :
    ((∃ e, minstrobe_hash_fn sel urange sh w_min w_max seed = .error e) ↔
      (w_max = 1 ∨ max_shape_count < List.count true sh ∨
        ∃ e, sel ((kmer_hash_shape sh urange).map (fun i => i ^^^ seed)) w_min w_max =
          .error e)) ∧
    (w_max = 1 → minstrobe_hash_fn sel urange sh w_min w_max seed = .error minstrobe_hash_error) ∧
    (w_max ≠ 1 → max_shape_count < List.count true sh →
      minstrobe_hash_fn sel urange sh w_min w_max seed = .error kmer_hash_view_error) ∧
    (w_max ≠ 1 → List.count true sh ≤ max_shape_count →
      minstrobe_hash_fn sel urange sh w_min w_max seed =
        sel ((kmer_hash_shape sh urange).map (fun i => i ^^^ seed)) w_min w_max) := by
  refine ⟨?_, fun h => by subst h; rfl,
    fun h hlt => minstrobe_hash_fn_of_lt sel urange sh w_min w_max seed h hlt,
    fun h hle => minstrobe_hash_fn_of_le sel urange sh w_min w_max seed h hle⟩
  by_cases h : w_max = 1
  · subst h
    exact ⟨fun _ => Or.inl rfl, fun _ => ⟨minstrobe_hash_error, rfl⟩⟩
  · by_cases hlt : max_shape_count < List.count true sh
    · exact ⟨fun _ => Or.inr (Or.inl hlt),
        fun _ => ⟨_, minstrobe_hash_fn_of_lt sel urange sh w_min w_max seed h hlt⟩⟩
    · rw [minstrobe_hash_fn_of_le sel urange sh w_min w_max seed h (by omega)]
      constructor
      · intro he
        exact Or.inr (Or.inr he)
      · intro hor
        rcases hor with h1 | h2 | h3
        · exact absurd h1 h
        · exact absurd h2 hlt
        · exact h3

theorem minstrobe_hash_fails_iff_one_or_large_witness :
    (ungapped 40).length ≤ shape_capacity ∧
    ((∃ e, minstrobe_hash_fn (fun a b c => .ok (minstrobe_view (fun x y => x ^^^ y) a b c))
        text3 (ungapped 40) 2 1 0 = .error e) ↔
      (1 = 1 ∨ max_shape_count < List.count true (ungapped 40) ∨
        ∃ e, (.ok (minstrobe_view (fun x y => x ^^^ y)
          ((kmer_hash_shape (ungapped 40) text3).map (fun i => i ^^^ 0)) 2 1) :
            Except String (List Nat)) = .error e)) ∧
    (1 = 1 → minstrobe_hash_fn (fun a b c => .ok (minstrobe_view (fun x y => x ^^^ y) a b c))
      text3 (ungapped 40) 2 1 0 = .error minstrobe_hash_error) ∧
    (1 ≠ 1 → max_shape_count < List.count true (ungapped 40) →
      minstrobe_hash_fn (fun a b c => .ok (minstrobe_view (fun x y => x ^^^ y) a b c))
        text3 (ungapped 40) 2 1 0 = .error kmer_hash_view_error) ∧
    (1 ≠ 1 → List.count true (ungapped 40) ≤ max_shape_count →
      minstrobe_hash_fn (fun a b c => .ok (minstrobe_view (fun x y => x ^^^ y) a b c))
        text3 (ungapped 40) 2 1 0 =
        .ok (minstrobe_view (fun x y => x ^^^ y)
          ((kmer_hash_shape (ungapped 40) text3).map (fun i => i ^^^ 0)) 2 1)) :=
  ⟨by decide,
    minstrobe_hash_fails_iff_one_or_large
      (fun a b c => .ok (minstrobe_view (fun x y => x ^^^ y) a b c)) text3 (ungapped 40) 2 1 0
      (by decide)⟩

/-- C17: called without a seed, directly or through the closure of pipe notation,
`syncmer_hash` and `minstrobe_hash` return what they return with the seed
`0x8F3F73B5CF1C9ADE`, for every input and every other parameter. -/
theorem default_seed_is_used :
    (∀ (text : List dna4) (s k : Nat),
      syncmer_hash text s k = syncmer_hash text s k 0x8F3F73B5CF1C9ADE ∧
      syncmer_hash_closure s k text = syncmer_hash_closure_seed s k 0x8F3F73B5CF1C9ADE text) ∧
    (∀ (β : Type) (sel : List Nat → Nat → Nat → β) (urange : List dna4) (sh : shape)
      (w_min w_max : Nat),
      minstrobe_hash sel urange sh w_min w_max =
        minstrobe_hash sel urange sh w_min w_max 0x8F3F73B5CF1C9ADE ∧
      minstrobe_hash_closure sel sh w_min w_max urange =
        minstrobe_hash sel urange sh w_min w_max 0x8F3F73B5CF1C9ADE) :=
  ⟨fun _ _ _ => ⟨rfl, rfl⟩, fun _ _ _ _ _ _ => ⟨rfl, rfl⟩⟩

/-- C18: for every text of length `n` and sizes `s < k`, the syncmer output, closed or open, is
an order-preserving subsequence of the k-mer hash sequence of the text, and has at most
`n - k + 1` elements when `n ≥ k`. -/
theorem syncmer_sublist_of_kmer_hash (text : List dna4) (s k : Nat) (o : Bool) (_h : s < k) :
    List.Sublist (syncmer o s k text) (kmer_hash k text) ∧
    (k ≤ text.length → (syncmer o s k text).length ≤ text.length - k + 1) := by
  have hsub : List.Sublist (syncmer o s k text) (kmer_hash k text) :=
    syncmer_view_sublist o _ _ _
  refine ⟨hsub, fun hk => ?_⟩
  have := hsub.length_le
  rw [kmer_hash_length] at this
  omega

theorem syncmer_sublist_of_kmer_hash_witness :
    2 < 5 ∧
    List.Sublist [105, 422, 609, 111, 447, 764, 1010]
      [105, 422, 664, 609, 390, 539, 111, 447, 764, 1010] ∧
    (5 ≤ text3.length → (syncmer false 2 5 text3).length ≤ text3.length - 5 + 1) :=
  ⟨by decide, syncmer_sublist_of_kmer_hash text3 2 5 false (by decide)⟩

/-! ## The minstrobe selector -/

/-- The values of the clipped window are the values of the sequence from `pos + w_min` on. -/
theorem minstrobe_window_getD (urange : List Nat) (pos w_min w_max j : Nat)
    (hj : j < (minstrobe_window urange pos w_min w_max).length) :
    (minstrobe_window urange pos w_min w_max).getD j 0 = urange.getD (pos + w_min + j) 0 := by
  unfold minstrobe_window at hj ⊢
  have hj1 : j < w_max - w_min := by
    simp only [List.length_take] at hj
    omega
  rw [List.getD_eq_getElem?_getD, List.getD_eq_getElem?_getD, List.getElem?_take_of_lt hj1,
    List.getElem?_drop]

theorem minstrobe_window_length (urange : List Nat) (pos w_min w_max : Nat) :
    (minstrobe_window urange pos w_min w_max).length =
      min (w_max - w_min) (urange.length - (pos + w_min)) := by
  simp [minstrobe_window]

/-- The position the selector picks for an anchor whose clipped window is not empty. -/
theorem strobe_position_eq (urange : List Nat) (pos w_min w_max : Nat)
    (h : minstrobe_window urange pos w_min w_max ≠ []) :
    strobe_position urange pos w_min w_max =
      some (pos + w_min + min_position (minstrobe_window urange pos w_min w_max)) := by
  unfold strobe_position
  cases hw : minstrobe_window urange pos w_min w_max with
  | nil => exact absurd hw h
  | cons x rest => rfl

/-- Reading `filterMap` over `range n` at an index below which every value is kept. -/
theorem filterMap_range_getElem? {β : Type} (f : Nat → Option β) :
    ∀ (n m : Nat), m ≤ n → (∀ i, i < m → (f i).isSome = true) →
      ∀ pos, pos < m → ((List.range n).filterMap f)[pos]? = f pos := by
  have key : ∀ m, (∀ i, i < m → (f i).isSome = true) →
      ((List.range m).filterMap f).length = m ∧
        ∀ pos, pos < m → ((List.range m).filterMap f)[pos]? = f pos := by
    intro m
    induction m with
    | zero => intro _; exact ⟨rfl, fun pos hpos => absurd hpos (Nat.not_lt_zero _)⟩
    | succ m ih =>
      intro hsome
      obtain ⟨hlen, hget⟩ := ih (fun i hi => hsome i (by omega))
      obtain ⟨b, hb⟩ := Option.isSome_iff_exists.mp (hsome m (by omega))
      have hstep : (List.range (m + 1)).filterMap f = (List.range m).filterMap f ++ [b] := by
        rw [List.range_succ, List.filterMap_append]
        simp [List.filterMap_cons, hb]
      rw [hstep]
      refine ⟨by simp [hlen], fun pos hpos => ?_⟩
      rcases Nat.lt_or_ge pos m with hlt | hge
      · rw [List.getElem?_append_left (by omega)]
        exact hget pos hlt
      · have : pos = m := by omega
        subst this
        rw [List.getElem?_append_right (by omega), hlen, hb]
        simp
  intro n m hmn hsome pos hpos
  obtain ⟨hlen, hget⟩ := key m hsome
  obtain ⟨r, rfl⟩ : ∃ r, n = m + r := ⟨n - m, by omega⟩
  rw [List.range_add, List.filterMap_append, List.getElem?_append_left (by omega)]
  exact hget pos hpos

/-- C15: for every hash sequence, every anchor position `pos` and bounds `w_min < w_max` whose
window `[pos + w_min, pos + w_max)`, clipped at the end of the sequence, is not empty, the
selector picks a position `p` of that window whose value is the minimum of the window and
strictly below every earlier value of the window, so the leftmost occurrence of the minimum; it
combines the anchor value with the value at `p`, and that is the output for the anchor. -/
theorem minstrobe_selects_leftmost_minimum (combine : Nat → Nat → Nat) (urange : List Nat)
    (pos w_min w_max : Nat) (hw : w_min < w_max) (hpos : pos + w_min < urange.length) :
    ∃ p, strobe_position urange pos w_min w_max = some p ∧
      pos + w_min ≤ p ∧ p < pos + w_max ∧ p < urange.length ∧
      (∀ j, pos + w_min ≤ j → j < pos + w_max → j < urange.length →
        urange.getD p 0 ≤ urange.getD j 0) ∧
      (∀ j, pos + w_min ≤ j → j < p → urange.getD p 0 < urange.getD j 0) ∧
      minstrobe_at combine urange pos w_min w_max =
        some (combine (urange.getD pos 0) (urange.getD p 0)) ∧
      (minstrobe_view combine urange w_min w_max)[pos]? =
        some (combine (urange.getD pos 0) (urange.getD p 0)) := by
  have hlen := minstrobe_window_length urange pos w_min w_max
  have hne : ∀ i, i + w_min < urange.length → minstrobe_window urange i w_min w_max ≠ [] := by
    intro i hi hnil
    have := minstrobe_window_length urange i w_min w_max
    rw [hnil] at this
    simp only [List.length_nil] at this
    omega
  have hat : ∀ i, i + w_min < urange.length →
      minstrobe_at combine urange i w_min w_max =
        some (combine (urange.getD i 0) (urange.getD
          (i + w_min + min_position (minstrobe_window urange i w_min w_max)) 0)) := by
    intro i hi
    have hi2 : i < urange.length := by omega
    unfold minstrobe_at
    rw [strobe_position_eq urange i w_min w_max (hne i hi), List.getElem?_eq_getElem hi2,
      List.getD_eq_getElem _ _ hi2]
  obtain ⟨h1, h2, h3⟩ := min_position_spec _ (hne pos hpos)
  simp only [Nat.zero_add] at h2 h3
  have hq := h1
  rw [hlen] at hq
  refine ⟨_, strobe_position_eq urange pos w_min w_max (hne pos hpos), by omega, by omega,
    by omega, fun j hj1 hj2 hj3 => ?_, fun j hj1 hj2 => ?_, hat pos hpos, ?_⟩
  · obtain ⟨r, rfl⟩ : ∃ r, j = pos + w_min + r := ⟨j - (pos + w_min), by omega⟩
    have hr : r < (minstrobe_window urange pos w_min w_max).length := by rw [hlen]; omega
    rw [← minstrobe_window_getD urange pos w_min w_max _ h1,
      ← minstrobe_window_getD urange pos w_min w_max r hr]
    exact h2 r hr
  · obtain ⟨r, rfl⟩ : ∃ r, j = pos + w_min + r := ⟨j - (pos + w_min), by omega⟩
    have hr : r < min_position (minstrobe_window urange pos w_min w_max) := by omega
    rw [← minstrobe_window_getD urange pos w_min w_max _ h1,
      ← minstrobe_window_getD urange pos w_min w_max r (by omega)]
    exact h3 r hr
  · unfold minstrobe_view
    rw [filterMap_range_getElem? _ urange.length (urange.length - w_min) (by omega)
      (fun i hi => by rw [hat i (by omega)]; rfl) pos (by omega)]
    exact hat pos hpos

theorem minstrobe_selects_leftmost_minimum_witness :
    1 < 4 ∧ 0 + 1 < [5, 3, 9, 3, 7, 1, 1].length ∧
    strobe_position [5, 3, 9, 3, 7, 1, 1] 0 1 4 = some 1 ∧
    ∃ p, strobe_position [5, 3, 9, 3, 7, 1, 1] 0 1 4 = some p ∧
      0 + 1 ≤ p ∧ p < 0 + 4 ∧ p < [5, 3, 9, 3, 7, 1, 1].length ∧
      (∀ j, 0 + 1 ≤ j → j < 0 + 4 → j < [5, 3, 9, 3, 7, 1, 1].length →
        [5, 3, 9, 3, 7, 1, 1].getD p 0 ≤ [5, 3, 9, 3, 7, 1, 1].getD j 0) ∧
      (∀ j, 0 + 1 ≤ j → j < p → [5, 3, 9, 3, 7, 1, 1].getD p 0 < [5, 3, 9, 3, 7, 1, 1].getD j 0) ∧
      minstrobe_at (fun a b => a * 1000 + b) [5, 3, 9, 3, 7, 1, 1] 0 1 4 =
        some ((fun a b => a * 1000 + b) ([5, 3, 9, 3, 7, 1, 1].getD 0 0)
          ([5, 3, 9, 3, 7, 1, 1].getD p 0)) ∧
      (minstrobe_view (fun a b => a * 1000 + b) [5, 3, 9, 3, 7, 1, 1] 1 4)[0]? =
        some ((fun a b => a * 1000 + b) ([5, 3, 9, 3, 7, 1, 1].getD 0 0)
          ([5, 3, 9, 3, 7, 1, 1].getD p 0)) :=
  ⟨by decide, by decide, by decide,
    minstrobe_selects_leftmost_minimum (fun a b => a * 1000 + b) [5, 3, 9, 3, 7, 1, 1] 0 1 4
      (by decide) (by decide)⟩

/-! ## The modmer scan in distance mode -/

theorem gaps_from_cons_of_hit (m g x : Nat) (xs : List Nat) (h : x % m = 0) :
    gaps_from m g (x :: xs) = g :: gaps_from m 0 xs := by
  simp [gaps_from, h]

theorem gaps_from_cons_of_miss (m g x : Nat) (xs : List Nat) (h : x % m ≠ 0) :
    gaps_from m g (x :: xs) = gaps_from m (g + 1) xs := by
  simp [gaps_from, h]

/-- One call of `next_unique_modmer_loop` in distance mode: at the next qualifying position the
value is the number of positions stepped over and the counter is back at zero. -/
theorem next_unique_modmer_loop_distance (xs : List Nat) :
    ∀ (n : Nat) (it : basic_iterator), it.mod ≠ 0 → it.urng1_sentinel = xs.length →
      it.urng1_iterator + n = xs.length → 0 < n → it.distance + n ≤ word →
      ∃ it1, next_unique_modmer_loop true xs n it = .ok it1 ∧ it1.mod = it.mod ∧
        it1.urng1_sentinel = xs.length ∧ it.urng1_iterator < it1.urng1_iterator ∧
        it1.urng1_iterator ≤ xs.length ∧
        (it1.urng1_iterator < xs.length → it1.distance = 0 ∧
          gaps_from it.mod it.distance (xs.drop (it.urng1_iterator + 1)) =
            it1.modmer_value :: gaps_from it.mod 0 (xs.drop (it1.urng1_iterator + 1))) ∧
        (it1.urng1_iterator = xs.length →
          gaps_from it.mod it.distance (xs.drop (it.urng1_iterator + 1)) = []) := by
  intro n
  induction n with
  | zero => intro it _ _ _ h; omega
  | succ n ih =>
    intro it hmod hsent hpos _ hdist
    obtain ⟨ita, ha, hapos, hasent, hamod, -, hadist⟩ := advance_of_lt it (by omega)
    simp only [next_unique_modmer_loop, ha]
    by_cases hend : it.urng1_iterator + 1 = xs.length
    · rw [next_modmer_of_end true xs ita (by omega)]
      refine ⟨ita, rfl, hamod, by omega, by omega, by omega, fun h => by omega, fun _ => ?_⟩
      rw [hend, List.drop_length]
      rfl
    · have hlt2 : it.urng1_iterator + 1 < xs.length := by omega
      have hget : xs[ita.urng1_iterator]? = some xs[it.urng1_iterator + 1] := by
        rw [hapos]; exact List.getElem?_eq_getElem hlt2
      have hdrop : xs.drop (it.urng1_iterator + 1) =
          xs[it.urng1_iterator + 1] :: xs.drop (it.urng1_iterator + 1 + 1) :=
        List.drop_eq_getElem_cons hlt2
      have hne : ita.urng1_iterator ≠ ita.urng1_sentinel := by omega
      have hmoda : ita.mod ≠ 0 := by rw [hamod]; exact hmod
      have hd : ita.distance = it.distance + 1 := by
        rw [hadist]
        unfold word at hdist ⊢
        omega
      by_cases hdiv : xs[it.urng1_iterator + 1] % it.mod = 0
      · have hdiva : xs[it.urng1_iterator + 1] % ita.mod = 0 := by rw [hamod]; exact hdiv
        have hval : (ita.distance + word - 1) % word = it.distance := by
          rw [hd]
          unfold word at hdist ⊢
          omega
        rw [next_modmer_distance_of_hit xs ita _ hne hget hmoda hdiva]
        refine ⟨_, rfl, hamod, by simpa using (by omega : ita.urng1_sentinel = xs.length),
          by simp; omega, by simp; omega, fun _ => ⟨rfl, ?_⟩, fun h => ?_⟩
        · simp only [hval, hapos]
          rw [hdrop, gaps_from_cons_of_hit _ _ _ _ hdiv]
        · simp only at h
          omega
      · have hdiva : xs[it.urng1_iterator + 1] % ita.mod ≠ 0 := by rw [hamod]; exact hdiv
        rw [next_modmer_of_miss true xs ita _ hne hget hmoda hdiva]
        obtain ⟨it1, h1, h2, h3, h4, h5, h6, h7⟩ :=
          ih ita hmoda (by omega) (by omega) (by omega) (by omega)
        rw [hamod, hd, hapos] at h6 h7
        rw [hamod] at h2
        refine ⟨it1, h1, h2, h3, by omega, h5, fun h => ⟨(h6 h).1, ?_⟩, fun h => ?_⟩
        · rw [hdrop, gaps_from_cons_of_miss _ _ _ _ hdiv]
          exact (h6 h).2
        · rw [hdrop, gaps_from_cons_of_miss _ _ _ _ hdiv]
          exact h7 h

/-- The consumer loop in distance mode over an iterator that is at the end or at a qualifying
position with its counter at zero. -/
theorem drain_distance_spec (xs : List Nat) (m : Nat) (hm : m ≠ 0) (hlen : xs.length < word) :
    ∀ (n : Nat) (it : basic_iterator), it.mod = m → it.urng1_sentinel = xs.length →
      it.urng1_iterator ≤ xs.length → xs.length - it.urng1_iterator ≤ n →
      (it.urng1_iterator < xs.length → it.distance = 0) →
      drain true xs n it =
        .ok (if it.urng1_iterator < xs.length then
          it.modmer_value :: gaps_from m 0 (xs.drop (it.urng1_iterator + 1)) else []) := by
  intro n
  induction n with
  | zero =>
    intro it _ hsent hle hn _
    have : it.urng1_iterator = xs.length := by omega
    simp [drain, basic_iterator.at_end, hsent, this]
  | succ n ih =>
    intro it hmod hsent hle hn hzero
    by_cases hend : it.urng1_iterator = xs.length
    · simp [drain, basic_iterator.at_end, hsent, hend]
    · have hlt : it.urng1_iterator < xs.length := by omega
      have hmod0 : it.mod ≠ 0 := by rw [hmod]; exact hm
      obtain ⟨it1, h1, h2, h3, h4, h5, h6, h7⟩ :=
        next_unique_modmer_loop_distance xs (xs.length - it.urng1_iterator) it hmod0 hsent
          (by omega) (by omega) (by rw [hzero hlt]; omega)
      rw [hmod, hzero hlt] at h6 h7
      rw [hmod] at h2
      have hrec := ih it1 h2 h3 h5 (by omega) (fun h => (h6 h).1)
      have hfuel : it.urng1_sentinel - it.urng1_iterator = xs.length - it.urng1_iterator := by
        rw [hsent]
      simp only [drain, basic_iterator.at_end, hsent, beq_iff_eq, hend, if_false,
        basic_iterator.incr, next_unique_modmer, h1, hrec, basic_iterator.deref, if_pos hlt]
      by_cases hlt1 : it1.urng1_iterator < xs.length
      · rw [if_pos hlt1, (h6 hlt1).2]
      · rw [if_neg hlt1, h7 (by omega)]

/-- Reading a distance-mode view with a nonzero modulus over fewer than `2 ^ 64` values to the
end: no fault, and the result is the list of run lengths of non-qualifying values. -/
theorem to_list_distance_spec (v : modmer_view) (hmod : v.mod_used ≠ 0)
    (hlen : v.urange1.length < word) :
    v.to_list true = .ok (gaps_from v.mod_used 0 v.urange1) := by
  obtain ⟨xs, m⟩ := v
  simp only at hmod hlen ⊢
  simp only [modmer_view.to_list, modmer_view.begin, basic_iterator.mk_begin, first_modmer]
  generalize hit0 : basic_iterator.mk 0 0 xs.length m 1 = it0
  have h0pos : it0.urng1_iterator = 0 := by rw [← hit0]
  have h0sent : it0.urng1_sentinel = xs.length := by rw [← hit0]
  have h0mod : it0.mod = m := by rw [← hit0]
  have h0dist : it0.distance = 1 := by rw [← hit0]
  have hmod0 : it0.mod ≠ 0 := by rw [h0mod]; exact hmod
  cases xs with
  | nil =>
    rw [next_modmer_of_end true [] it0 (by rw [h0pos, h0sent]; rfl)]
    simp [drain, basic_iterator.at_end, h0pos, h0sent, gaps_from]
  | cons a xs =>
    have hne : it0.urng1_iterator ≠ it0.urng1_sentinel := by
      rw [h0pos, h0sent]; simp
    have hget : (a :: xs)[it0.urng1_iterator]? = some a := by rw [h0pos]; simp
    by_cases hdiv : a % m = 0
    · have hdiv0 : a % it0.mod = 0 := by rw [h0mod]; exact hdiv
      rw [next_modmer_distance_of_hit (a :: xs) it0 a hne hget hmod0 hdiv0]
      obtain ⟨itb, hb⟩ : ∃ itb, itb = basic_iterator.mk ((it0.distance + word - 1) % word)
          it0.urng1_iterator it0.urng1_sentinel it0.mod 0 := ⟨_, rfl⟩
      have hbpos : itb.urng1_iterator = 0 := by rw [hb]; exact h0pos
      have hbval : itb.modmer_value = 0 := by
        rw [hb]
        simp only [h0dist]
        rfl
      have hrun := drain_distance_spec (a :: xs) m hmod hlen
        (it0.urng1_sentinel - it0.urng1_iterator) itb (by rw [hb]; exact h0mod)
        (by rw [hb]; exact h0sent) (by rw [hbpos]; omega) (by rw [hbpos, h0sent, h0pos])
        (fun _ => by rw [hb])
      rw [hbpos, hbval] at hrun
      rw [hb] at hrun
      simp only at hrun ⊢
      rw [hrun, gaps_from_cons_of_hit _ _ _ _ hdiv]
      simp
    · have hdiv0 : a % it0.mod ≠ 0 := by rw [h0mod]; exact hdiv
      rw [next_modmer_of_miss true (a :: xs) it0 a hne hget hmod0 hdiv0]
      obtain ⟨it1, h1, h2, h3, h4, h5, h6, h7⟩ :=
        next_unique_modmer_loop_distance (a :: xs) (a :: xs).length it0 hmod0 h0sent
          (by rw [h0pos]; omega) (by simp) (by rw [h0dist]; omega)
      rw [h0mod, h0dist, h0pos] at h6 h7
      rw [h0mod] at h2
      have hfuel : next_unique_modmer true (a :: xs) it0 = .ok it1 := by
        unfold next_unique_modmer
        rw [h0sent, h0pos]
        exact h1
      simp only [hfuel]
      rw [drain_distance_spec (a :: xs) m hmod hlen _ it1 h2 h3 h5 (by omega)
        (fun h => (h6 h).1), gaps_from_cons_of_miss _ _ _ _ hdiv]
      simp only [Nat.zero_add, List.drop_succ_cons, List.drop_zero] at h6 h7
      by_cases hlt1 : it1.urng1_iterator < (a :: xs).length
      · rw [if_pos hlt1, (h6 hlt1).2, List.drop_succ_cons]
      · rw [if_neg hlt1, h7 (by omega)]

/-! ## Gaps between qualifying positions -/

/-- The qualifying positions, shifted by `off`, are the positions counted from `off`. -/
theorem positions_from_eq (m : Nat) (xs : List Nat) :
    ∀ off, ((List.range xs.length).filter (fun i => xs.getD i 0 % m == 0)).map
      (fun i => i + off) = positions_from m off xs := by
  induction xs with
  | nil => intro off; rfl
  | cons x xs ih =>
    intro off
    have hshift : ((fun i => (x :: xs).getD i 0 % m == 0) ∘ Nat.succ) =
        (fun i => xs.getD i 0 % m == 0) := by
      funext i
      simp only [Function.comp, Nat.succ_eq_add_one, List.getD_cons_succ]
    have hmap : ((fun i => i + off) ∘ Nat.succ) = (fun i => i + (off + 1)) := by
      funext i
      simp only [Function.comp, Nat.succ_eq_add_one]
      omega
    rw [List.length_cons, List.range_succ_eq_map, List.filter_cons, List.filter_map, hshift]
    by_cases hdiv : x % m = 0
    · have h0 : ((x :: xs).getD 0 0 % m == 0) = true := by simpa using hdiv
      rw [if_pos h0, List.map_cons, List.map_map, hmap, ih (off + 1)]
      simp [positions_from, hdiv]
    · have h0 : ¬ ((x :: xs).getD 0 0 % m == 0) = true := by simpa using hdiv
      rw [if_neg h0, List.map_map, hmap, ih (off + 1)]
      simp [positions_from, hdiv]

theorem qualifying_positions_eq (xs : List Nat) (m : Nat) :
    qualifying_positions xs m = positions_from m 0 xs := by
  rw [← positions_from_eq m xs 0]
  simp [qualifying_positions]

theorem le_of_mem_positions_from (m : Nat) (xs : List Nat) :
    ∀ off p, p ∈ positions_from m off xs → off ≤ p := by
  induction xs with
  | nil => intro off p hp; simp [positions_from] at hp
  | cons x xs ih =>
    intro off p hp
    by_cases hdiv : x % m = 0
    · simp only [positions_from, hdiv, beq_self_eq_true, if_true, List.mem_cons] at hp
      rcases hp with rfl | hp
      · exact Nat.le_refl _
      · exact Nat.le_of_succ_le (ih _ _ hp)
    · have h0 : (x % m == 0) = false := by simpa using hdiv
      simp only [positions_from, h0] at hp
      exact Nat.le_of_succ_le (ih _ _ hp)

theorem positions_from_cons_of_hit (m off x : Nat) (xs : List Nat) (h : x % m = 0) :
    positions_from m off (x :: xs) = off :: positions_from m (off + 1) xs := by
  simp [positions_from, h]

theorem positions_from_cons_of_miss (m off x : Nat) (xs : List Nat) (h : x % m ≠ 0) :
    positions_from m off (x :: xs) = positions_from m (off + 1) xs := by
  simp [positions_from, h]

/-- The run lengths counted from `g` are the gaps between the positions counted from `off`,
the first one measured from `off` and increased by `g`. -/
theorem gaps_from_eq (m : Nat) (xs : List Nat) :
    ∀ g off, gaps_from m g xs =
      match positions_from m off xs with
      | [] => []
      | p :: rest => (p - off + g) :: List.zipWith (fun a b => b - a - 1) (p :: rest) rest := by
  induction xs with
  | nil => intro g off; rfl
  | cons x xs ih =>
    intro g off
    by_cases hdiv : x % m = 0
    · rw [gaps_from_cons_of_hit _ _ _ _ hdiv, positions_from_cons_of_hit _ _ _ _ hdiv,
        ih 0 (off + 1)]
      cases positions_from m (off + 1) xs with
      | nil => simp
      | cons p rest => simp; omega
    · rw [gaps_from_cons_of_miss _ _ _ _ hdiv, positions_from_cons_of_miss _ _ _ _ hdiv,
        ih (g + 1) (off + 1)]
      have hle := le_of_mem_positions_from m xs (off + 1)
      cases hP : positions_from m (off + 1) xs with
      | nil => rfl
      | cons p rest =>
        have hp := hle p (by rw [hP]; exact List.mem_cons_self _ _)
        simp only [List.cons.injEq, and_true]
        omega

theorem gaps_from_zero_eq (m : Nat) (xs : List Nat) :
    gaps_from m 0 xs = gaps (qualifying_positions xs m) := by
  rw [gaps_from_eq m xs 0 0, qualifying_positions_eq]
  cases positions_from m 0 xs with
  | nil => rfl
  | cons p rest => simp [gaps]

/-- C20: in distance mode, for a nonzero modulus and an input of fewer than `2 ^ 64` values whose
qualifying positions are `p_0 < p_1 < ... < p_m`, the view is read to the end without a fault
and the outputs are `d_0 = p_0` and `d_j = p_j - p_(j-1) - 1` for `j ≥ 1`. -/
theorem distance_mode_yields_gaps (xs : List Nat) (mod_used : Nat) (hmod : 0 < mod_used)
    (hlen : xs.length < word) :
    modmer_view.to_list true { urange1 := xs, mod_used := mod_used } =
      .ok (gaps (qualifying_positions xs mod_used)) ∧
    gaps (qualifying_positions xs mod_used) = gaps_from mod_used 0 xs := by
  refine ⟨?_, (gaps_from_zero_eq mod_used xs).symm⟩
  rw [to_list_distance_spec ⟨xs, mod_used⟩ (by simp only; omega) hlen]
  exact congrArg _ (gaps_from_zero_eq mod_used xs)

theorem distance_mode_yields_gaps_witness :
    0 < 2 ∧ [1, 1, 4, 3, 6, 8, 1, 0, 2, 5].length < word ∧
    qualifying_positions [1, 1, 4, 3, 6, 8, 1, 0, 2, 5] 2 = [2, 4, 5, 7, 8] ∧
    modmer_view.to_list true { urange1 := [1, 1, 4, 3, 6, 8, 1, 0, 2, 5], mod_used := 2 } =
      .ok [2, 1, 0, 1, 0] :=
  ⟨by decide, by decide, by decide,
    (distance_mode_yields_gaps [1, 1, 4, 3, 6, 8, 1, 0, 2, 5] 2 (by decide) (by decide)).1⟩

/-! ## The accesses of a traversal -/

theorem advance_traced_fst (it : basic_iterator) :
    (advance_traced it).map Prod.fst = advance it := by
  simp only [advance_traced, advance]
  split <;> rfl

theorem next_modmer_traced_fst (md : Bool) (xs : List Nat) (it : basic_iterator) :
    (next_modmer_traced md xs it).map Prod.fst = next_modmer md xs it := by
  simp only [next_modmer_traced, next_modmer]
  split
  · rfl
  · split
    · rfl
    · split
      · rfl
      · split
        · split <;> rfl
        · rfl

theorem next_unique_modmer_loop_traced_fst (md : Bool) (xs : List Nat) :
    ∀ (n : Nat) (it : basic_iterator),
      (next_unique_modmer_loop_traced md xs n it).map Prod.fst =
        next_unique_modmer_loop md xs n it := by
  intro n
  induction n with
  | zero => intro it; rfl
  | succ n ih =>
    intro it
    simp only [next_unique_modmer_loop_traced, next_unique_modmer_loop]
    rw [← advance_traced_fst it]
    cases advance_traced it with
    | error e => rfl
    | ok r =>
      obtain ⟨it1, stepped⟩ := r
      simp only [Except.map]
      rw [← next_modmer_traced_fst md xs it1]
      cases next_modmer_traced md xs it1 with
      | error e => rfl
      | ok r1 =>
        obtain ⟨⟨b, it2⟩, tested⟩ := r1
        cases b with
        | true => rfl
        | false =>
          simp only [Except.map]
          rw [← ih it2]
          cases next_unique_modmer_loop_traced md xs n it2 with
          | error e => rfl
          | ok r2 => rfl

theorem begin_traced_fst (sized md : Bool) (v : modmer_view) :
    (v.begin_traced sized md).map Prod.fst = v.begin md := by
  simp only [modmer_view.begin_traced, modmer_view.begin, basic_iterator.mk_begin_traced,
    basic_iterator.mk_begin, first_modmer_traced, first_modmer, Nat.sub_zero]
  rw [← next_modmer_traced_fst md v.urange1 (basic_iterator.mk 0 0 v.urange1.length v.mod_used 1)]
  cases next_modmer_traced md v.urange1
    (basic_iterator.mk 0 0 v.urange1.length v.mod_used 1) with
  | error e => rfl
  | ok r =>
    obtain ⟨⟨b, it1⟩, tested⟩ := r
    cases b with
    | true => rfl
    | false =>
      simp only [Except.map, next_unique_modmer_traced, next_unique_modmer]
      rw [← next_unique_modmer_loop_traced_fst md v.urange1 _ it1]
      cases next_unique_modmer_loop_traced md v.urange1
        (it1.urng1_sentinel - it1.urng1_iterator) it1 with
      | error e => rfl
      | ok r2 => rfl

theorem drain_traced_fst (md : Bool) (xs : List Nat) :
    ∀ (n : Nat) (it : basic_iterator),
      (drain_traced md xs n it).map Prod.fst = drain md xs n it := by
  intro n
  induction n with
  | zero =>
    intro it
    simp only [drain_traced, drain]
    split <;> rfl
  | succ n ih =>
    intro it
    simp only [drain_traced, drain, basic_iterator.incr, basic_iterator.incr_traced,
      next_unique_modmer_traced, next_unique_modmer]
    split
    · rfl
    · rw [← next_unique_modmer_loop_traced_fst md xs _ it]
      cases next_unique_modmer_loop_traced md xs (it.urng1_sentinel - it.urng1_iterator) it with
      | error e => rfl
      | ok r =>
        obtain ⟨it1, trace⟩ := r
        simp only [Except.map]
        rw [← ih it1]
        cases drain_traced md xs n it1 with
        | error e => rfl
        | ok r2 => rfl

/-- Dropping the accesses of the traced traversal gives the traversal. -/
theorem to_list_traced_fst (sized md : Bool) (v : modmer_view) :
    (v.to_list_traced sized md).map Prod.fst = v.to_list md := by
  simp only [modmer_view.to_list_traced, modmer_view.to_list]
  rw [← begin_traced_fst sized md v]
  cases v.begin_traced sized md with
  | error e => rfl
  | ok r =>
    obtain ⟨it, trace⟩ := r
    simp only [Except.map]
    rw [← drain_traced_fst md v.urange1 _ it]
    cases drain_traced md v.urange1 (it.urng1_sentinel - it.urng1_iterator) it with
    | error e => rfl
    | ok r2 => rfl

theorem advance_traced_of_lt (it : basic_iterator) (h : it.urng1_iterator < it.urng1_sentinel) :
    ∃ it1, advance_traced it = .ok (it1, [access.step it.urng1_iterator]) ∧
      advance it = .ok it1 ∧ it1.urng1_iterator = it.urng1_iterator + 1 ∧
      it1.urng1_sentinel = it.urng1_sentinel ∧ it1.mod = it.mod := by
  refine ⟨{ it with distance := (it.distance + 1) % word,
                    urng1_iterator := it.urng1_iterator + 1 }, ?_, ?_, rfl, rfl, rfl⟩
  · simp [advance_traced, h]
  · simp [advance, h]

theorem next_modmer_traced_of_end (md : Bool) (xs : List Nat) (it : basic_iterator)
    (h : it.urng1_iterator = it.urng1_sentinel) :
    next_modmer_traced md xs it = .ok ((true, it), []) := by
  simp [next_modmer_traced, h]

theorem next_modmer_traced_of_hit (xs : List Nat) (it : basic_iterator) (x : Nat)
    (hne : it.urng1_iterator ≠ it.urng1_sentinel) (hx : xs[it.urng1_iterator]? = some x)
    (hmod : it.mod ≠ 0) (hdiv : x % it.mod = 0) :
    next_modmer_traced false xs it = .ok ((true, { it with modmer_value := x }),
      [access.test it.urng1_iterator, access.load it.urng1_iterator]) := by
  simp [next_modmer_traced, hne, hx, hmod, hdiv]

theorem next_modmer_traced_distance_of_hit (xs : List Nat) (it : basic_iterator) (x : Nat)
    (hne : it.urng1_iterator ≠ it.urng1_sentinel) (hx : xs[it.urng1_iterator]? = some x)
    (hmod : it.mod ≠ 0) (hdiv : x % it.mod = 0) :
    next_modmer_traced true xs it =
      .ok ((true, { it with modmer_value := (it.distance + word - 1) % word, distance := 0 }),
        [access.test it.urng1_iterator]) := by
  simp [next_modmer_traced, hne, hx, hmod, hdiv]

theorem next_modmer_traced_of_miss (md : Bool) (xs : List Nat) (it : basic_iterator) (x : Nat)
    (hne : it.urng1_iterator ≠ it.urng1_sentinel) (hx : xs[it.urng1_iterator]? = some x)
    (hmod : it.mod ≠ 0) (hdiv : x % it.mod ≠ 0) :
    next_modmer_traced md xs it = .ok ((false, it), [access.test it.urng1_iterator]) := by
  simp [next_modmer_traced, hne, hx, hmod, hdiv]

theorem scan_accesses_drop (md : Bool) (m : Nat) (xs : List Nat) (p : Nat) (h : p < xs.length) :
    scan_accesses md m p (xs.drop p) =
      access.test p :: ((if xs[p] % m == 0 && !md then [access.load p] else []) ++
        accesses_after md m xs p) := by
  rw [List.drop_eq_getElem_cons h]
  simp only [scan_accesses, accesses_after, h, if_true]

theorem accesses_after_of_lt (md : Bool) (m : Nat) (xs : List Nat) (p : Nat)
    (h : p + 1 < xs.length) :
    accesses_after md m xs p =
      access.step p :: access.test (p + 1) ::
        ((if xs[p + 1] % m == 0 && !md then [access.load (p + 1)] else []) ++
          accesses_after md m xs (p + 1)) := by
  have hp : p < xs.length := by omega
  rw [← scan_accesses_drop md m xs (p + 1) h]
  simp only [accesses_after, hp, if_true]

theorem accesses_after_last (md : Bool) (m : Nat) (xs : List Nat) (p : Nat)
    (h : p + 1 = xs.length) : accesses_after md m xs p = [access.step p] := by
  have hp : p < xs.length := by omega
  simp only [accesses_after, hp, if_true]
  rw [List.drop_of_length_le (by omega)]
  rfl

theorem accesses_after_end (md : Bool) (m : Nat) (xs : List Nat) (p : Nat)
    (h : xs.length ≤ p) : accesses_after md m xs p = [] := by
  simp [accesses_after, Nat.not_lt.mpr h]

/-- One call of `next_unique_modmer()` performs the accesses of the scan from the step away from
the current position up to the test, and in value mode the load, at the position it stops at. -/
theorem next_unique_modmer_loop_traced_spec (md : Bool) (xs : List Nat) :
    ∀ (n : Nat) (it : basic_iterator), it.mod ≠ 0 → it.urng1_sentinel = xs.length →
      it.urng1_iterator + n = xs.length → 0 < n →
      ∃ it1 trace, next_unique_modmer_loop_traced md xs n it = .ok (it1, trace) ∧
        it1.mod = it.mod ∧ it1.urng1_sentinel = xs.length ∧
        it.urng1_iterator < it1.urng1_iterator ∧ it1.urng1_iterator ≤ xs.length ∧
        trace ++ accesses_after md it.mod xs it1.urng1_iterator =
          accesses_after md it.mod xs it.urng1_iterator := by
  intro n
  induction n with
  | zero => intro it _ _ _ h; omega
  | succ n ih =>
    intro it hmod hsent hpos _
    obtain ⟨ita, hat, -, hapos, hasent, hamod⟩ := advance_traced_of_lt it (by omega)
    simp only [next_unique_modmer_loop_traced, hat]
    by_cases hend : it.urng1_iterator + 1 = xs.length
    · rw [next_modmer_traced_of_end md xs ita (by omega)]
      refine ⟨ita, _, rfl, hamod, by omega, by omega, by omega, ?_⟩
      rw [hapos, accesses_after_end md it.mod xs _ (by omega),
        accesses_after_last md it.mod xs _ hend]
      rfl
    · have hlt2 : it.urng1_iterator + 1 < xs.length := by omega
      have hget : xs[ita.urng1_iterator]? = some xs[it.urng1_iterator + 1] := by
        rw [hapos]; exact List.getElem?_eq_getElem hlt2
      have hne : ita.urng1_iterator ≠ ita.urng1_sentinel := by omega
      have hmoda : ita.mod ≠ 0 := by rw [hamod]; exact hmod
      have hrest := accesses_after_of_lt md it.mod xs it.urng1_iterator hlt2
      by_cases hdiv : xs[it.urng1_iterator + 1] % it.mod = 0
      · have hdiva : xs[it.urng1_iterator + 1] % ita.mod = 0 := by rw [hamod]; exact hdiv
        cases md with
        | false =>
          rw [next_modmer_traced_of_hit xs ita _ hne hget hmoda hdiva]
          refine ⟨_, _, rfl, hamod, by simpa using (by omega : ita.urng1_sentinel = xs.length),
            by simp; omega, by simp; omega, ?_⟩
          simp only [hapos]
          rw [hrest]
          simp [hdiv]
        | true =>
          rw [next_modmer_traced_distance_of_hit xs ita _ hne hget hmoda hdiva]
          refine ⟨_, _, rfl, hamod, by simpa using (by omega : ita.urng1_sentinel = xs.length),
            by simp; omega, by simp; omega, ?_⟩
          simp only [hapos]
          rw [hrest]
          simp
      · have hdiva : xs[it.urng1_iterator + 1] % ita.mod ≠ 0 := by rw [hamod]; exact hdiv
        rw [next_modmer_traced_of_miss md xs ita _ hne hget hmoda hdiva]
        obtain ⟨it1, trace, h1, h2, h3, h4, h5, h6⟩ :=
          ih ita hmoda (by omega) (by omega) (by omega)
        rw [hamod] at h2 h6
        rw [hapos] at h6
        simp only [h1]
        refine ⟨it1, _, rfl, h2, h3, by omega, h5, ?_⟩
        rw [hrest, List.append_assoc, h6, hapos]
        simp [hdiv]

/-- The walk of `std::ranges::distance` in the constructor over a range of `n` positions. -/
theorem walked_eq (sized : Bool) (n : Nat) :
    (if sized then [] else (List.range' 0 (n - 0)).map access.walk) =
      if sized then [] else (List.range n).map access.walk := by
  simp [List.range_eq_range']

/-- Priming performs, after the walk of the constructor, the accesses of the scan from the
first position up to the test, and in value mode the load, at the position it stops at. -/
theorem begin_traced_spec (sized md : Bool) (v : modmer_view) (hmod : v.mod_used ≠ 0) :
    ∃ it trace, v.begin_traced sized md = .ok (it, trace) ∧ it.mod = v.mod_used ∧
      it.urng1_sentinel = v.urange1.length ∧ it.urng1_iterator ≤ v.urange1.length ∧
      trace ++ accesses_after md v.mod_used v.urange1 it.urng1_iterator =
        (if sized then [] else (List.range v.urange1.length).map access.walk) ++
          scan_accesses md v.mod_used 0 v.urange1 := by
  obtain ⟨xs, m⟩ := v
  simp only at hmod ⊢
  simp only [modmer_view.begin_traced, basic_iterator.mk_begin_traced, first_modmer_traced,
    walked_eq]
  generalize hit0 : basic_iterator.mk 0 0 xs.length m 1 = it0
  generalize (if sized then [] else (List.range xs.length).map access.walk) = walked
  have h0pos : it0.urng1_iterator = 0 := by rw [← hit0]
  have h0sent : it0.urng1_sentinel = xs.length := by rw [← hit0]
  have h0mod : it0.mod = m := by rw [← hit0]
  have hmod0 : it0.mod ≠ 0 := by rw [h0mod]; exact hmod
  cases xs with
  | nil =>
    rw [next_modmer_traced_of_end md [] it0 (by rw [h0pos, h0sent]; rfl)]
    refine ⟨it0, _, rfl, h0mod, h0sent, by rw [h0pos]; exact Nat.zero_le _, ?_⟩
    rw [accesses_after_end md m [] _ (by simp)]
    simp [scan_accesses]
  | cons a xs =>
    have hne : it0.urng1_iterator ≠ it0.urng1_sentinel := by
      rw [h0pos, h0sent]; simp
    have hget : (a :: xs)[it0.urng1_iterator]? = some a := by rw [h0pos]; simp
    have hscan := scan_accesses_drop md m (a :: xs) 0 (by simp)
    simp only [List.drop_zero, List.getElem_cons_zero] at hscan
    by_cases hdiv : a % m = 0
    · have hdiv0 : a % it0.mod = 0 := by rw [h0mod]; exact hdiv
      cases md with
      | false =>
        rw [next_modmer_traced_of_hit (a :: xs) it0 a hne hget hmod0 hdiv0]
        refine ⟨_, _, rfl, h0mod, h0sent, by simp [h0pos], ?_⟩
        simp only [h0pos]
        rw [hscan]
        simp [hdiv]
      | true =>
        rw [next_modmer_traced_distance_of_hit (a :: xs) it0 a hne hget hmod0 hdiv0]
        refine ⟨_, _, rfl, h0mod, h0sent, by simp [h0pos], ?_⟩
        simp only [h0pos]
        rw [hscan]
        simp
    · have hdiv0 : a % it0.mod ≠ 0 := by rw [h0mod]; exact hdiv
      rw [next_modmer_traced_of_miss md (a :: xs) it0 a hne hget hmod0 hdiv0]
      obtain ⟨it1, trace, h1, h2, h3, h4, h5, h6⟩ :=
        next_unique_modmer_loop_traced_spec md (a :: xs) (a :: xs).length it0 hmod0 h0sent
          (by rw [h0pos]; omega) (by simp)
      rw [h0mod] at h2 h6
      rw [h0pos] at h6
      have hrun : next_unique_modmer_traced md (a :: xs) it0 = .ok (it1, trace) := by
        unfold next_unique_modmer_traced
        rw [h0sent, h0pos]
        exact h1
      simp only [hrun]
      refine ⟨it1, _, rfl, h2, h3, h5, ?_⟩
      rw [hscan, List.append_assoc, List.append_assoc, h6, h0pos]
      simp [hdiv]

/-- The consumer loop performs the accesses that remain after the test at the position of its
iterator. -/
theorem drain_traced_spec (md : Bool) (xs : List Nat) (m : Nat) (hm : m ≠ 0) :
    ∀ (n : Nat) (it : basic_iterator), it.mod = m → it.urng1_sentinel = xs.length →
      it.urng1_iterator ≤ xs.length → xs.length - it.urng1_iterator ≤ n →
      ∃ out, drain_traced md xs n it = .ok (out, accesses_after md m xs it.urng1_iterator) := by
  intro n
  induction n with
  | zero =>
    intro it _ hsent hle hn
    have : it.urng1_iterator = xs.length := by omega
    refine ⟨[], ?_⟩
    rw [accesses_after_end md m xs _ (by omega)]
    simp [drain_traced, basic_iterator.at_end, hsent, this]
  | succ n ih =>
    intro it hmod hsent hle hn
    by_cases hend : it.urng1_iterator = xs.length
    · refine ⟨[], ?_⟩
      rw [accesses_after_end md m xs _ (by omega)]
      simp [drain_traced, basic_iterator.at_end, hsent, hend]
    · have hmod0 : it.mod ≠ 0 := by rw [hmod]; exact hm
      obtain ⟨it1, trace, h1, h2, h3, h4, h5, h6⟩ :=
        next_unique_modmer_loop_traced_spec md xs (xs.length - it.urng1_iterator) it hmod0 hsent
          (by omega) (by omega)
      rw [hmod] at h2 h6
      obtain ⟨rest, hrest⟩ := ih it1 h2 h3 h5 (by omega)
      refine ⟨it.deref :: rest, ?_⟩
      simp only [drain_traced, basic_iterator.at_end, hsent, beq_iff_eq, hend, if_false,
        basic_iterator.incr_traced, next_unique_modmer_traced, h1, hrest, h6]

/-- A full traversal with a nonzero modulus performs the walk of the constructor and then the
accesses of the scan of the whole range, and returns what the plain traversal returns. -/
theorem to_list_traced_spec (sized md : Bool) (v : modmer_view) (hmod : v.mod_used ≠ 0) :
    ∃ out, v.to_list_traced sized md = .ok (out,
        (if sized then [] else (List.range v.urange1.length).map access.walk) ++
          scan_accesses md v.mod_used 0 v.urange1) ∧
      v.to_list md = .ok out := by
  obtain ⟨it, trace, h1, h2, h3, h4, h5⟩ := begin_traced_spec sized md v hmod
  obtain ⟨out, hout⟩ := drain_traced_spec md v.urange1 v.mod_used hmod
    (it.urng1_sentinel - it.urng1_iterator) it h2 h3 h4 (by omega)
  have hrun : v.to_list_traced sized md = .ok (out,
      (if sized then [] else (List.range v.urange1.length).map access.walk) ++
        scan_accesses md v.mod_used 0 v.urange1) := by
    simp only [modmer_view.to_list_traced, h1, hout, h5]
  refine ⟨out, hrun, ?_⟩
  rw [← to_list_traced_fst sized md v, hrun]
  rfl

theorem tested_positions_scan (md : Bool) (m : Nat) (xs : List Nat) :
    ∀ p, tested_positions (scan_accesses md m p xs) = List.range' p xs.length := by
  induction xs with
  | nil => intro p; rfl
  | cons x xs ih =>
    intro p
    have h := ih (p + 1)
    simp only [tested_positions] at h ⊢
    simp only [scan_accesses, List.length_cons, List.range'_succ]
    split <;> simp [List.filterMap_cons, h]

theorem stepped_positions_scan (md : Bool) (m : Nat) (xs : List Nat) :
    ∀ p, stepped_positions (scan_accesses md m p xs) = List.range' p xs.length := by
  induction xs with
  | nil => intro p; rfl
  | cons x xs ih =>
    intro p
    have h := ih (p + 1)
    simp only [stepped_positions] at h ⊢
    simp only [scan_accesses, List.length_cons, List.range'_succ]
    split <;> simp [List.filterMap_cons, h]

theorem walked_positions_scan (md : Bool) (m : Nat) (xs : List Nat) :
    ∀ p, walked_positions (scan_accesses md m p xs) = [] := by
  induction xs with
  | nil => intro p; rfl
  | cons x xs ih =>
    intro p
    have h := ih (p + 1)
    simp only [walked_positions] at h ⊢
    simp only [scan_accesses]
    split <;> simp [List.filterMap_cons, h]

theorem loaded_positions_scan_distance (m : Nat) (xs : List Nat) :
    ∀ p, loaded_positions (scan_accesses true m p xs) = [] := by
  induction xs with
  | nil => intro p; rfl
  | cons x xs ih =>
    intro p
    have h := ih (p + 1)
    simp only [loaded_positions] at h ⊢
    simp [scan_accesses, List.filterMap_cons, h]

theorem loaded_positions_scan (m : Nat) (xs : List Nat) :
    ∀ p, loaded_positions (scan_accesses false m p xs) = positions_from m p xs := by
  induction xs with
  | nil => intro p; rfl
  | cons x xs ih =>
    intro p
    have h := ih (p + 1)
    simp only [loaded_positions] at h ⊢
    by_cases hdiv : x % m = 0
    · rw [positions_from_cons_of_hit m p x xs hdiv]
      simp [scan_accesses, List.filterMap_cons, h, hdiv]
    · rw [positions_from_cons_of_miss m p x xs hdiv]
      simp [scan_accesses, List.filterMap_cons, h, hdiv]

theorem positions_of_walk (sized : Bool) (n : Nat) :
    tested_positions (if sized then [] else (List.range n).map access.walk) = [] ∧
    loaded_positions (if sized then [] else (List.range n).map access.walk) = [] ∧
    stepped_positions (if sized then [] else (List.range n).map access.walk) = [] ∧
    walked_positions (if sized then [] else (List.range n).map access.walk) =
      if sized then [] else List.range n := by
  cases sized
  · simp only [Bool.false_eq_true, if_false, tested_positions, loaded_positions,
      stepped_positions, walked_positions, List.filterMap_map]
    refine ⟨?_, ?_, ?_, ?_⟩
    · exact List.filterMap_eq_nil_iff.mpr (fun a _ => rfl)
    · exact List.filterMap_eq_nil_iff.mpr (fun a _ => rfl)
    · exact List.filterMap_eq_nil_iff.mpr (fun a _ => rfl)
    · have : ((fun a => match a with | access.walk p => some p | _ => none) ∘ access.walk) =
          (some : Nat → Option Nat) := rfl
      rw [this, List.filterMap_some]
  · exact ⟨rfl, rfl, rfl, rfl⟩

/-! ## Claims on the modmer iterator -/

/-- C21: for every finite input and `mod_used ≥ 2`, in either mode: priming returns an iterator;
a pre-increment from a position before the end returns an iterator whose position is strictly
greater and not past the end; and a full traversal returns its output and evaluates the
divisibility test `*urng1_iterator % mod` once at every position of the input, in increasing
order, so at no position twice. Of the other accesses to the underlying range, a value is
copied into `modmer_value` only in value mode and only at the positions whose value the modulus
divides, once each; the iterator is stepped once from every position; and the constructor walks
the range once, without a dereference, when the sentinel is not a sized one. -/
theorem modmer_traversal_terminates (xs : List Nat) (mod_used : Nat) (md : Bool)
    (h : 2 ≤ mod_used) :
    (∃ it, modmer_view.begin md { urange1 := xs, mod_used := mod_used } = .ok it ∧
      it.urng1_iterator ≤ xs.length) ∧
    (∀ it : basic_iterator, it.mod = mod_used → it.urng1_sentinel = xs.length →
      it.urng1_iterator < xs.length →
      ∃ it1, it.incr md xs = .ok it1 ∧ it.urng1_iterator < it1.urng1_iterator ∧
        it1.urng1_iterator ≤ xs.length) ∧
    (∀ sized : Bool, ∃ out trace,
      modmer_view.to_list_traced sized md { urange1 := xs, mod_used := mod_used } =
        .ok (out, trace) ∧
      modmer_view.to_list md { urange1 := xs, mod_used := mod_used } = .ok out ∧
      tested_positions trace = List.range xs.length ∧
      (∀ p, List.count p (tested_positions trace) ≤ 1) ∧
      loaded_positions trace = (if md then [] else qualifying_positions xs mod_used) ∧
      stepped_positions trace = List.range xs.length ∧
      walked_positions trace = (if sized then [] else List.range xs.length)) := by
  have hmod : mod_used ≠ 0 := by omega
  refine ⟨?_, fun it hm hs hlt => ?_, fun sized => ?_⟩
  · obtain ⟨it, h1, -, -, h4, -, -⟩ := begin_spec md ⟨xs, mod_used⟩ hmod
    exact ⟨it, h1, h4⟩
  · obtain ⟨it1, h1, -, -, h4, h5, -, -⟩ :=
      next_unique_modmer_spec md xs it (by rw [hm]; exact hmod) hs hlt
    exact ⟨it1, h1, h4, h5⟩
  · obtain ⟨out, h1, h2⟩ := to_list_traced_spec sized md ⟨xs, mod_used⟩ hmod
    obtain ⟨w1, w2, w3, w4⟩ := positions_of_walk sized xs.length
    have htest : tested_positions
        ((if sized then [] else (List.range xs.length).map access.walk) ++
          scan_accesses md mod_used 0 xs) = List.range xs.length := by
      have := tested_positions_scan md mod_used xs 0
      simp only [tested_positions, List.filterMap_append] at w1 this ⊢
      rw [w1, this, List.nil_append, List.range_eq_range']
    refine ⟨out, _, h1, h2, htest, fun p => ?_, ?_, ?_, ?_⟩
    · rw [htest]
      exact List.nodup_iff_count_le_one.mp (List.nodup_range _) p
    · cases md with
      | true =>
        have := loaded_positions_scan_distance mod_used xs 0
        simp only [loaded_positions, List.filterMap_append] at w2 this ⊢
        rw [w2, this]
        rfl
      | false =>
        have := loaded_positions_scan mod_used xs 0
        simp only [loaded_positions, List.filterMap_append] at w2 this ⊢
        rw [w2, this, qualifying_positions_eq]
        rfl
    · have := stepped_positions_scan md mod_used xs 0
      simp only [stepped_positions, List.filterMap_append] at w3 this ⊢
      rw [w3, this, List.nil_append, List.range_eq_range']
    · have := walked_positions_scan md mod_used xs 0
      simp only [walked_positions, List.filterMap_append] at w4 this ⊢
      rw [w4, this, List.append_nil]

theorem modmer_traversal_terminates_witness :
    2 ≤ 2 ∧
    modmer_view.to_list_traced false false { urange1 := [4, 3, 6, 8], mod_used := 2 } =
      .ok ([4, 6, 8], [.walk 0, .walk 1, .walk 2, .walk 3,
        .test 0, .load 0, .step 0, .test 1, .step 1, .test 2, .load 2, .step 2,
        .test 3, .load 3, .step 3]) ∧
    ∀ sized : Bool, ∃ out trace,
      modmer_view.to_list_traced sized false { urange1 := [4, 3, 6, 8], mod_used := 2 } =
        .ok (out, trace) ∧
      modmer_view.to_list false { urange1 := [4, 3, 6, 8], mod_used := 2 } = .ok out ∧
      tested_positions trace = List.range [4, 3, 6, 8].length ∧
      (∀ p, List.count p (tested_positions trace) ≤ 1) ∧
      loaded_positions trace =
        (if false then [] else qualifying_positions [4, 3, 6, 8] 2) ∧
      stepped_positions trace = List.range [4, 3, 6, 8].length ∧
      walked_positions trace = (if sized then [] else List.range [4, 3, 6, 8].length) :=
  ⟨by decide, by decide, (modmer_traversal_terminates [4, 3, 6, 8] 2 false (by decide)).2.2⟩

/-- Every reachable state of a value-mode traversal with a nonzero modulus keeps the modulus and
the sentinel of the view, is not past the end, and before the end holds the value at its
position, which the modulus divides. -/
theorem reachable_spec (v : modmer_view) (hmod : v.mod_used ≠ 0) (it : basic_iterator)
    (hr : reachable v it) :
    it.mod = v.mod_used ∧ it.urng1_sentinel = v.urange1.length ∧
      it.urng1_iterator ≤ v.urange1.length ∧
      ∀ x, v.urange1[it.urng1_iterator]? = some x → x % v.mod_used = 0 ∧ it.modmer_value = x := by
  induction hr with
  | begin it hb =>
    obtain ⟨it0, h1, h2, h3, h4, -, h6⟩ := begin_spec false v hmod
    rw [hb] at h1
    cases h1
    exact ⟨h2, h3, h4, fun x hx => ⟨(h6 x hx).1, (h6 x hx).2 rfl⟩⟩
  | incr it it1 _ hne hstep ih =>
    obtain ⟨hm, hs, hle, -⟩ := ih
    have hlt : it.urng1_iterator < v.urange1.length := by
      have : it.urng1_iterator ≠ it.urng1_sentinel := by
        simpa [basic_iterator.at_end] using hne
      omega
    obtain ⟨it2, h1, h2, h3, -, h5, -, h7⟩ :=
      next_unique_modmer_spec false v.urange1 it (by rw [hm]; exact hmod) hs hlt
    rw [basic_iterator.incr, h1] at hstep
    cases hstep
    rw [hm] at h2 h7
    exact ⟨h2, h3, h5, fun x hx => ⟨(h7 x hx).1, (h7 x hx).2 rfl⟩⟩

/-- C22: for every iterator state reachable in value mode by `begin()` followed by
pre-increments made while not at the end, with `mod_used ≥ 2`: the iterator compares equal to
the end marker iff its position equals the underlying end, which is the length of the range;
otherwise the element at its position is divisible by `mod_used` and `operator*` returns that
element. -/
theorem reachable_invariant (v : modmer_view) (it : basic_iterator) (h : 2 ≤ v.mod_used)
    (hr : reachable v it) :
    (it.at_end = true ↔ it.urng1_iterator = it.urng1_sentinel) ∧
    it.urng1_sentinel = v.urange1.length ∧ it.urng1_iterator ≤ v.urange1.length ∧
    (it.at_end = false →
      ∃ x, v.urange1[it.urng1_iterator]? = some x ∧ x % v.mod_used = 0 ∧ it.deref = x) := by
  obtain ⟨-, hs, hle, hval⟩ := reachable_spec v (by omega) it hr
  refine ⟨by simp [basic_iterator.at_end], hs, hle, fun hne => ?_⟩
  have hlt : it.urng1_iterator < v.urange1.length := by
    have : it.urng1_iterator ≠ it.urng1_sentinel := by
      simpa [basic_iterator.at_end] using hne
    omega
  exact ⟨_, List.getElem?_eq_getElem hlt, (hval _ (List.getElem?_eq_getElem hlt)).1,
    (hval _ (List.getElem?_eq_getElem hlt)).2⟩

theorem reachable_invariant_witness :
    2 ≤ (modmer_view.mk [4, 3, 6, 8, 1, 0, 2] 2).mod_used ∧
    reachable (modmer_view.mk [4, 3, 6, 8, 1, 0, 2] 2) (basic_iterator.mk 6 2 7 2 3) ∧
    ((basic_iterator.mk 6 2 7 2 3).at_end = true ↔ 2 = 7) ∧ 7 = 7 ∧ 2 ≤ 7 ∧
    ((basic_iterator.mk 6 2 7 2 3).at_end = false →
      ∃ x, [4, 3, 6, 8, 1, 0, 2][2]? = some x ∧ x % 2 = 0 ∧
        (basic_iterator.mk 6 2 7 2 3).deref = x) :=
  have hr : reachable (modmer_view.mk [4, 3, 6, 8, 1, 0, 2] 2) (basic_iterator.mk 6 2 7 2 3) :=
    reachable.incr (basic_iterator.mk 4 0 7 2 1) _ (reachable.begin _ rfl) rfl rfl
  ⟨by decide, hr,
    reachable_invariant (modmer_view.mk [4, 3, 6, 8, 1, 0, 2] 2) (basic_iterator.mk 6 2 7 2 3)
      (by decide) hr⟩

/-- C23: the bound `min(mod_used, size)` computed in the iterator constructor is not used: the
constructor primes the iterator whose modulus is the `mod_used` supplied, `begin()` returns an
iterator with that modulus, and the traversal keeps the values the supplied `mod_used` divides,
also for an input shorter than `mod_used`. -/
theorem lookahead_bound_unused (xs : List Nat) (mod_used : Nat) (h : 0 < mod_used) :
    (∀ md, basic_iterator.mk_begin md xs 0 xs.length mod_used =
      first_modmer md xs (basic_iterator.mk 0 0 xs.length mod_used 1)) ∧
    (∀ md it, modmer_view.begin md { urange1 := xs, mod_used := mod_used } = .ok it →
      it.mod = mod_used) ∧
    modmer_view.to_list false { urange1 := xs, mod_used := mod_used } =
      .ok (xs.filter (fun x => x % mod_used == 0)) := by
  refine ⟨fun md => rfl, fun md it hb => ?_, to_list_spec ⟨xs, mod_used⟩ (by simp only; omega)⟩
  obtain ⟨it0, h1, h2, -, -, -, -⟩ := begin_spec md ⟨xs, mod_used⟩ (by simp only; omega)
  rw [hb] at h1
  cases h1
  exact h2

theorem lookahead_bound_unused_witness :
    0 < 4 ∧ min 4 [2].length = 1 ∧ [2].filter (fun x => x % min 4 [2].length == 0) = [2] ∧
    modmer [2] 4 = .ok (.ok []) ∧
    modmer_view.to_list false { urange1 := [2], mod_used := 4 } = .ok [] :=
  ⟨by decide, by decide, by decide, by decide, (lookahead_bound_unused [2] 4 (by decide)).2.2⟩

/-- C29: a `modmer_view` constructed directly with `mod_used = 1`, which the adaptor refuses to
build, is read to the end without a fault and yields the input sequence unchanged. -/
theorem modmer_view_one_is_identity (xs : List Nat) :
    modmer_view.to_list false { urange1 := xs, mod_used := 1 } = .ok xs ∧
    modmer xs 1 = .error modmer_error := by
  refine ⟨?_, rfl⟩
  rw [to_list_spec ⟨xs, 1⟩ (by simp)]
  simp [Nat.mod_one]

/-! ## Further claims on the syncmer views -/

/-- A span that passes the open test passes the closed test. -/
theorem is_syncmer_closed_of_open (window : List Nat) (h : is_syncmer true window = true) :
    is_syncmer false window = true := by
  simp only [is_syncmer, Bool.not_true, Bool.false_and, Bool.or_false] at h
  simp [is_syncmer, h]

/-- The open selector emits a subsequence of what the closed selector emits. -/
theorem syncmer_view_open_sublist_closed (w : Nat) :
    ∀ (S K : List Nat), List.Sublist (syncmer_view true S K w) (syncmer_view false S K w) := by
  intro S
  induction S with
  | nil => intro K; simp [syncmer_view]
  | cons s S ih =>
    intro K
    cases K with
    | nil => simp [syncmer_view]
    | cons k K =>
      rw [syncmer_view_cons_cons, syncmer_view_cons_cons]
      by_cases hshort : (s :: S).length < w
      · rw [if_pos hshort, if_pos hshort]
      · rw [if_neg hshort, if_neg hshort]
        by_cases hopen : is_syncmer true ((s :: S).take w) = true
        · rw [if_pos hopen, if_pos (is_syncmer_closed_of_open _ hopen)]
          exact (ih K).cons₂ k
        · rw [if_neg hopen]
          split
          · exact (ih K).cons k
          · exact ih K

/-- With all s-mer values equal the selector emits every k-mer value. -/
theorem syncmer_view_of_all_equal (o : Bool) (w : Nat) (hw : 0 < w) :
    ∀ (K S : List Nat), (∀ a ∈ S, ∀ b ∈ S, a = b) → (K ≠ [] → K.length + w ≤ S.length + 1) →
      syncmer_view o S K w = K := by
  intro K
  induction K with
  | nil => intro S _ _; exact syncmer_view_nil_right o S w
  | cons k K ih =>
    intro S heq hS
    have hS1 := hS (by simp)
    cases S with
    | nil => simp at hS1; omega
    | cons s S =>
      have hlen : w ≤ (s :: S).length := by simp at hS1 ⊢; omega
      have hsel : is_syncmer o ((s :: S).take w) = true := by
        rw [is_syncmer_take_iff o (s :: S) w hw hlen]
        refine Or.inl ⟨hw, fun j hj => ?_, fun j hj => absurd hj (Nat.not_lt_zero _)⟩
        have hj2 : 0 + j < (s :: S).length := by omega
        rw [Nat.add_zero, List.getD_eq_getElem _ _ (by simp), List.getD_eq_getElem _ _ hj2]
        exact Nat.le_of_eq (heq _ (List.getElem_mem _) _ (List.getElem_mem _))
      rw [syncmer_view_cons_cons, if_neg (by omega), if_pos hsel,
        ih S (fun a ha b hb => heq a (List.mem_cons_of_mem _ ha) b (List.mem_cons_of_mem _ hb))
          (fun hK => by
            have : 0 < K.length := List.length_pos.mpr hK
            simp at hS1
            omega)]

/-- C24: in closed mode, for every span whose minimal value occurs at an interior offset `j` and
again at the last offset but not at the first offset, the boundary test fails, and the selector
standing at that span emits nothing for it and goes on with the next span. -/
theorem closed_syncmer_tie_not_emitted (window : List Nat) (j : Nat) (_hj0 : 0 < j)
    (hj : j + 1 < window.length)
    (hmin : ∀ i, i < window.length → window.getD j 0 ≤ window.getD i 0)
    (_hlast : window.getD (window.length - 1) 0 = window.getD j 0)
    (hfirst : window.getD j 0 < window.getD 0 0) :
    min_position window ≤ j ∧ is_syncmer false window = false ∧
    ∀ (S K : List Nat) (k : Nat),
      syncmer_view false (window ++ S) (k :: K) window.length =
        syncmer_view false ((window ++ S).drop 1) K window.length := by
  have hne : window ≠ [] := by
    intro h
    rw [h] at hj
    simp at hj
  obtain ⟨h1, h2, h3⟩ := min_position_spec window hne
  simp only [Nat.zero_add] at h2 h3
  have hp0 : min_position window ≠ 0 := by
    intro h0
    rw [h0] at h2
    have := h2 j (by omega)
    omega
  have hpj : min_position window ≤ j := by
    rcases Nat.lt_or_ge j (min_position window) with hlt | hge
    · have := h3 j hlt
      have := hmin _ h1
      omega
    · exact hge
  have hsel : is_syncmer false window = false := by
    have hpl : min_position window + 1 ≠ window.length := by omega
    simp [is_syncmer, hp0, hpl]
  refine ⟨hpj, hsel, fun S K k => ?_⟩
  cases hw : window with
  | nil => exact absurd hw hne
  | cons x rest =>
    have htake : ((x :: rest) ++ S).take (x :: rest).length = x :: rest :=
      List.take_left' rfl
    rw [hw] at hsel
    rw [List.cons_append] at htake ⊢
    rw [syncmer_view_cons_cons, if_neg (by simp), htake, hsel]
    rfl

theorem closed_syncmer_tie_not_emitted_witness :
    0 < 1 ∧ 1 + 1 < [5, 3, 9, 3].length ∧ min_position [5, 3, 9, 3] = 1 ∧
    (min_position [5, 3, 9, 3] ≤ 1 ∧ is_syncmer false [5, 3, 9, 3] = false ∧
      ∀ (S K : List Nat) (k : Nat),
        syncmer_view false ([5, 3, 9, 3] ++ S) (k :: K) [5, 3, 9, 3].length =
          syncmer_view false (([5, 3, 9, 3] ++ S).drop 1) K [5, 3, 9, 3].length) :=
  ⟨by decide, by decide, by decide,
    closed_syncmer_tie_not_emitted [5, 3, 9, 3] 1 (by decide) (by decide) (by decide)
      (by decide) (by decide)⟩

/-- C25: for every text whose s-mer hashes are all equal, with `s < k`, every k-mer window is
emitted in closed and in open mode: both outputs are the whole k-mer hash sequence. -/
theorem syncmer_of_equal_smers (text : List dna4) (s k : Nat) (h : s < k)
    (heq : ∀ a ∈ kmer_hash s text, ∀ b ∈ kmer_hash s text, a = b) :
    syncmer false s k text = kmer_hash k text ∧ syncmer true s k text = kmer_hash k text := by
  have hS : kmer_hash k text ≠ [] →
      (kmer_hash k text).length + (k - s + 1) ≤ (kmer_hash s text).length + 1 := by
    intro hK
    have hpos := List.length_pos.mpr hK
    simp only [kmer_hash_length] at hpos ⊢
    omega
  exact ⟨syncmer_view_of_all_equal false _ (by omega) _ _ heq hS,
    syncmer_view_of_all_equal true _ (by omega) _ _ heq hS⟩

theorem syncmer_of_equal_smers_witness :
    2 < 5 ∧ (∀ a ∈ kmer_hash 2 text1, ∀ b ∈ kmer_hash 2 text1, a = b) ∧
    syncmer_hash text1 2 5 0 = .ok [0, 0] ∧
    syncmer false 2 5 text1 = [0, 0] ∧ syncmer true 2 5 text1 = [0, 0] :=
  ⟨by decide, by decide, by decide,
    syncmer_of_equal_smers text1 2 5 (by decide) (by decide)⟩

/-- C27: called as `syncmer_hash(text, 5, 2, seed 0)` on `ACGTCGACGTTTAG` the adaptor takes `5`
as the s-mer size and `2` as the k-mer size: the values handed to the selector as k-mer hashes
are the 2-mer hashes, all below `16`, the width is `2 ^ 64 - 2`, and the result is the empty
sequence, not `{109, 438, 865, 111, 447, 764, 1010}`; the call with the sizes `2, 5` yields that
list. -/
theorem syncmer_hash_swapped_sizes :
    syncmer_hash text4 5 2 0 = .ok [] ∧
    syncmer_hash text4 5 2 0 ≠ .ok [109, 438, 865, 111, 447, 764, 1010] ∧
    syncmer_hash text4 5 2 0 =
      .ok (syncmer_view false ((kmer_hash 5 text4).map (fun i => i ^^^ 0))
        ((kmer_hash 2 text4).map (fun i => i ^^^ 0)) (2 ^ 64 - 2)) ∧
    (∀ v ∈ (kmer_hash 2 text4).map (fun i => i ^^^ 0), v < 16) ∧
    syncmer_hash text4 2 5 0 = .ok [109, 438, 865, 111, 447, 764, 1010] := by
  refine ⟨by decide, by decide, rfl, by decide, by decide⟩

/-- C30: for every text and sizes `s < k` the open syncmer output is an order-preserving
subsequence of the closed syncmer output on the same input, so every k-mer emitted in open mode
is emitted in closed mode. -/
theorem open_syncmer_sublist_closed (text : List dna4) (s k : Nat) (_h : s < k) :
    List.Sublist (syncmer true s k text) (syncmer false s k text) ∧
    ∀ v ∈ syncmer true s k text, v ∈ syncmer false s k text :=
  ⟨syncmer_view_open_sublist_closed _ _ _,
    fun _ hv => (syncmer_view_open_sublist_closed _ _ _).subset hv⟩

theorem open_syncmer_sublist_closed_witness :
    2 < 5 ∧
    List.Sublist [105, 422, 111, 447, 764] [105, 422, 609, 111, 447, 764, 1010] ∧
    ∀ v ∈ syncmer true 2 5 text3, v ∈ syncmer false 2 5 text3 :=
  ⟨by decide, open_syncmer_sublist_closed text3 2 5 (by decide)⟩

/-! ## The converting constructor -/

/-- C31: the view over `[2, 4]` with `mod_used = 2` has `begin()` at position `0` with value
`2`. Converting that iterator keeps the value and the position, so it dereferences to the same
value and compares equal, but leaves the modulus at `0` and the distance at `1`: advancing the
original reaches position `1` with value `4`, advancing the converted iterator evaluates
`*urng1_iterator % mod` with a zero divisor. The same holds for every iterator with at least two
positions left. -/
theorem converted_iterator_loses_modulus :
    modmer_view.begin false { urange1 := [2, 4], mod_used := 2 } =
      .ok (basic_iterator.mk 2 0 2 2 1) ∧
    (basic_iterator.mk 2 0 2 2 1).to_const = basic_iterator.mk 2 0 2 0 1 ∧
    (basic_iterator.mk 2 0 2 2 1).incr false [2, 4] = .ok (basic_iterator.mk 4 1 2 2 2) ∧
    (basic_iterator.mk 2 0 2 2 1).to_const.incr false [2, 4] = .error fault.zero_divisor ∧
    (∀ it : basic_iterator, it.to_const.deref = it.deref ∧
      it.to_const.eq_iterator it = true ∧ it.to_const.at_end = it.at_end ∧
      it.to_const.mod = 0 ∧ it.to_const.distance = 1) ∧
    (∀ (md : Bool) (xs : List Nat) (it : basic_iterator), it.urng1_sentinel = xs.length →
      it.urng1_iterator + 1 < xs.length →
      it.to_const.incr md xs = .error fault.zero_divisor) := by
  refine ⟨rfl, rfl, rfl, rfl, fun it => ⟨rfl, by simp [basic_iterator.to_const,
    basic_iterator.eq_iterator], rfl, rfl, rfl⟩, fun md xs it hs hlt => ?_⟩
  have hget : xs[it.urng1_iterator + 1]? = some xs[it.urng1_iterator + 1] :=
    List.getElem?_eq_getElem hlt
  obtain ⟨n, hn⟩ : ∃ n, it.urng1_sentinel - it.urng1_iterator = n + 1 :=
    ⟨it.urng1_sentinel - it.urng1_iterator - 1, by omega⟩
  have hlt1 : it.urng1_iterator < it.urng1_sentinel := by omega
  have hne : ¬ it.urng1_iterator + 1 = it.urng1_sentinel := by omega
  simp [basic_iterator.incr, next_unique_modmer, basic_iterator.to_const, hn,
    next_unique_modmer_loop, advance, hlt1, next_modmer, hne, hget]

/-! ## Two traversals of one view -/

theorem view_set_iterator (m : memory) (b : Bool) (it : basic_iterator) :
    (m.set_iterator b it).view = m.view := by
  cases b <;> rfl

theorem iterator_set_iterator (m : memory) (b : Bool) (it : basic_iterator) :
    (m.set_iterator b it).iterator b = it := by
  cases b <;> rfl

theorem iterator_set_iterator_other (m : memory) (b : Bool) (it : basic_iterator) :
    (m.set_iterator b it).iterator (!b) = m.iterator (!b) := by
  cases b <;> rfl

/-- A member function of one iterator object leaves the view and the other iterator object as
they were, and does to its own object what it does to an iterator value. -/
theorem call_spec (m : memory) (b : Bool)
    (f : List Nat → basic_iterator → Except fault basic_iterator) :
    (m.call b f).map (fun m1 => m1.iterator b) = f m.view.urange1 (m.iterator b) ∧
    ∀ m1, m.call b f = .ok m1 → m1.view = m.view ∧ m1.iterator (!b) = m.iterator (!b) := by
  unfold memory.call
  cases f m.view.urange1 (m.iterator b) with
  | error e => exact ⟨rfl, fun m1 h => by cases h⟩
  | ok it =>
    refine ⟨?_, fun m1 h => ?_⟩
    · simp only [Except.map, iterator_set_iterator]
    · cases h
      exact ⟨view_set_iterator m b it, iterator_set_iterator_other m b it⟩

/-- The call `begin()` builds in its iterator object the iterator that `modmer_view.begin`
returns for the view, whatever the memory held before, and leaves the view and the other
iterator object as they were. -/
theorem begin_in_spec (b md : Bool) (m : memory) :
    (begin_in b md m).map (fun m1 => m1.iterator b) = m.view.begin md ∧
    ∀ m1, begin_in b md m = .ok m1 → m1.view = m.view ∧ m1.iterator (!b) = m.iterator (!b) := by
  cases b
  · exact call_spec _ false (first_modmer md)
  · exact call_spec _ true (first_modmer md)

/-- The consumer loop over one iterator object returns what `drain` returns for the iterator
value, and leaves the view and the other iterator object as they were. -/
theorem drain_in_spec (b md : Bool) :
    ∀ (n : Nat) (m : memory),
      (drain_in b md n m).map Prod.fst = drain md m.view.urange1 n (m.iterator b) ∧
      ∀ out m1, drain_in b md n m = .ok (out, m1) →
        m1.view = m.view ∧ m1.iterator (!b) = m.iterator (!b) := by
  intro n
  induction n with
  | zero =>
    intro m
    simp only [drain_in, drain]
    split
    · exact ⟨rfl, fun out m1 h => by cases h; exact ⟨rfl, rfl⟩⟩
    · exact ⟨rfl, fun out m1 h => by cases h⟩
  | succ n ih =>
    intro m
    simp only [drain_in, drain]
    split
    · exact ⟨rfl, fun out m1 h => by cases h; exact ⟨rfl, rfl⟩⟩
    · obtain ⟨hc1, hc2⟩ := call_spec m b (basic_iterator.incr md)
      simp only [incr_in]
      rw [← hc1]
      cases hcall : m.call b (basic_iterator.incr md) with
      | error e => exact ⟨rfl, fun out m1 h => by cases h⟩
      | ok ma =>
        obtain ⟨hv, ho⟩ := hc2 ma hcall
        obtain ⟨hd1, hd2⟩ := ih ma
        simp only [Except.map]
        rw [← hv, ← hd1]
        cases hdrain : drain_in b md n ma with
        | error e => exact ⟨rfl, fun out m1 h => by cases h⟩
        | ok r =>
          obtain ⟨rest, mb⟩ := r
          obtain ⟨hv2, ho2⟩ := hd2 rest mb hdrain
          refine ⟨rfl, fun out m1 h => ?_⟩
          cases h
          exact ⟨hv2, ho2.trans ho⟩

/-- One traversal returns what `modmer_view.to_list` returns for the view, whatever the memory
held before, and leaves the view and the other iterator object as they were. -/
theorem traverse_in_spec (b md : Bool) (m : memory) :
    (traverse_in b md m).map Prod.fst = m.view.to_list md ∧
    ∀ out m1, traverse_in b md m = .ok (out, m1) →
      m1.view = m.view ∧ m1.iterator (!b) = m.iterator (!b) := by
  obtain ⟨hb1, hb2⟩ := begin_in_spec b md m
  simp only [traverse_in, modmer_view.to_list]
  rw [← hb1]
  cases hbegin : begin_in b md m with
  | error e => exact ⟨rfl, fun out m1 h => by cases h⟩
  | ok ma =>
    obtain ⟨hv, ho⟩ := hb2 ma hbegin
    obtain ⟨hd1, hd2⟩ := drain_in_spec b md
      ((ma.iterator b).urng1_sentinel - (ma.iterator b).urng1_iterator) ma
    simp only [Except.map]
    rw [← hv]
    refine ⟨hd1, fun out m1 h => ?_⟩
    obtain ⟨hv2, ho2⟩ := hd2 out m1 h
    exact ⟨hv2, ho2.trans ho⟩

theorem ok_of_map_fst_ok {ε α β : Type} (x : Except ε (α × β)) (a : α)
    (h : x.map Prod.fst = .ok a) : ∃ b, x = .ok (a, b) := by
  cases x with
  | error e => cases h
  | ok r =>
    obtain ⟨a1, b1⟩ := r
    cases h
    exact ⟨b1, rfl⟩

/-- C19: in a memory that holds the view, two iterator objects and the parameters and the local
of the constructor, in either mode and for every modulus: a call of `begin()` leaves the view
and the other iterator object as they were, and the iterator it builds is the one determined by
the members of the view alone, whatever its object, the constructor parameters or the other
object held before; a traversal returns the sequence, or the fault, determined by the view, and
leaves the view as it was; after one traversal a second one, in a new iterator object or in the
object of the first, returns the identical sequence; the same holds when both iterators are
built before either is iterated; and with a nonzero modulus both traversals return. -/
theorem modmer_traversals_agree (md : Bool) (m : memory) :
    (∀ (b : Bool) (m1 : memory), begin_in b md m = .ok m1 →
      m1.view = m.view ∧ m1.iterator (!b) = m.iterator (!b) ∧
        m.view.begin md = .ok (m1.iterator b)) ∧
    (∀ b : Bool, (traverse_in b md m).map Prod.fst = m.view.to_list md) ∧
    (∀ (b : Bool) (out : List Nat) (m1 : memory), traverse_in b md m = .ok (out, m1) →
      m1.view = m.view ∧ m.view.to_list md = .ok out) ∧
    (∀ (out : List Nat) (m1 : memory), traverse_in false md m = .ok (out, m1) →
      (∃ m2, traverse_in true md m1 = .ok (out, m2) ∧ m2.view = m.view) ∧
      (∃ m2, traverse_in false md m1 = .ok (out, m2) ∧ m2.view = m.view)) ∧
    (∀ (ma mb mc : memory) (out : List Nat), begin_in false md m = .ok ma →
      begin_in true md ma = .ok mb →
      drain_in false md (mb.first.urng1_sentinel - mb.first.urng1_iterator) mb = .ok (out, mc) →
      ∃ m2, drain_in true md (mc.second.urng1_sentinel - mc.second.urng1_iterator) mc =
          .ok (out, m2) ∧ m2.view = m.view) ∧
    (m.view.mod_used ≠ 0 → ∃ out m1 m2, traverse_in false md m = .ok (out, m1) ∧
      traverse_in true md m1 = .ok (out, m2) ∧ m2.view = m.view) := by
  have hagain : ∀ (b : Bool) (out : List Nat) (m1 : memory), m1.view = m.view →
      m.view.to_list md = .ok out → ∃ m2, traverse_in b md m1 = .ok (out, m2) ∧
        m2.view = m.view := by
    intro b out m1 hv hout
    obtain ⟨h1, h2⟩ := traverse_in_spec b md m1
    rw [hv, hout] at h1
    obtain ⟨m2, hm2⟩ := ok_of_map_fst_ok _ _ h1
    exact ⟨m2, hm2, (h2 out m2 hm2).1.trans hv⟩
  have hone : ∀ (b : Bool) (out : List Nat) (m1 : memory), traverse_in b md m = .ok (out, m1) →
      m1.view = m.view ∧ m.view.to_list md = .ok out := by
    intro b out m1 h
    obtain ⟨h1, h2⟩ := traverse_in_spec b md m
    rw [h] at h1
    exact ⟨(h2 out m1 h).1, h1.symm⟩
  refine ⟨fun b m1 h => ?_, fun b => (traverse_in_spec b md m).1, hone, fun out m1 h => ?_,
    fun ma mb mc out ha hb hc => ?_, fun hmod => ?_⟩
  · obtain ⟨h1, h2⟩ := begin_in_spec b md m
    rw [h] at h1
    exact ⟨(h2 m1 h).1, (h2 m1 h).2, h1.symm⟩
  · obtain ⟨hv, hout⟩ := hone false out m1 h
    exact ⟨hagain true out m1 hv hout, hagain false out m1 hv hout⟩
  · obtain ⟨ha1, ha2⟩ := begin_in_spec false md m
    obtain ⟨hb1, hb2⟩ := begin_in_spec true md ma
    obtain ⟨hc1, hc2⟩ := drain_in_spec false md
      (mb.first.urng1_sentinel - mb.first.urng1_iterator) mb
    rw [ha] at ha1
    rw [hb, (ha2 ma ha).1] at hb1
    rw [hc] at hc1
    have hsame : mb.iterator true = ma.iterator false := by
      exact (Except.ok.inj (ha1.trans hb1.symm)).symm
    have hkeep : mb.iterator false = ma.iterator false := (hb2 mb hb).2
    have hlast : mc.iterator true = mb.iterator true := (hc2 out mc hc).2
    have hfirst : mb.first = mc.second := by
      have h1 : mb.iterator false = mb.first := rfl
      have h2 : mc.iterator true = mc.second := rfl
      rw [← h1, ← h2, hlast, hsame, hkeep]
    obtain ⟨hd1, hd2⟩ := drain_in_spec true md
      (mc.second.urng1_sentinel - mc.second.urng1_iterator) mc
    have hrun : (drain_in true md (mc.second.urng1_sentinel - mc.second.urng1_iterator)
        mc).map Prod.fst = .ok out := by
      rw [hd1, (hc2 out mc hc).1, ← hfirst]
      have h2 : mc.iterator true = mc.second := rfl
      rw [h2, ← hfirst]
      exact hc1.symm
    obtain ⟨m2, hm2⟩ := ok_of_map_fst_ok _ _ hrun
    refine ⟨m2, hm2, ?_⟩
    rw [(hd2 out m2 hm2).1, (hc2 out mc hc).1, (hb2 mb hb).1, (ha2 ma ha).1]
  · obtain ⟨out, -, hout⟩ := to_list_traced_spec true md m.view hmod
    obtain ⟨m1, hm1, hv1⟩ := hagain false out m rfl hout
    obtain ⟨m2, hm2, hv2⟩ := hagain true out m1 hv1 hout
    exact ⟨out, m1, m2, hm1, hm2, hv2⟩

theorem modmer_traversals_agree_witness :
    traverse_in false false
        { view := { urange1 := [10, 3, 5], mod_used := 5 }, param_urng1_iterator := 7,
          param_urng1_sentinel := 7, param_mod_used := 7, size := 7,
          first := { modmer_value := 9, urng1_iterator := 3, urng1_sentinel := 4, mod := 5,
                     distance := 6 },
          second := { modmer_value := 1, urng1_iterator := 1, urng1_sentinel := 1, mod := 1,
                      distance := 1 } } =
      .ok ([10, 5],
        { view := { urange1 := [10, 3, 5], mod_used := 5 }, param_urng1_iterator := 0,
          param_urng1_sentinel := 3, param_mod_used := 3, size := 3,
          first := { modmer_value := 5, urng1_iterator := 3, urng1_sentinel := 3, mod := 5,
                     distance := 4 },
          second := { modmer_value := 1, urng1_iterator := 1, urng1_sentinel := 1, mod := 1,
                      distance := 1 } }) ∧
    ((∃ m2, traverse_in true false
        { view := { urange1 := [10, 3, 5], mod_used := 5 }, param_urng1_iterator := 0,
          param_urng1_sentinel := 3, param_mod_used := 3, size := 3,
          first := { modmer_value := 5, urng1_iterator := 3, urng1_sentinel := 3, mod := 5,
                     distance := 4 },
          second := { modmer_value := 1, urng1_iterator := 1, urng1_sentinel := 1, mod := 1,
                      distance := 1 } } = .ok ([10, 5], m2) ∧
        m2.view = { urange1 := [10, 3, 5], mod_used := 5 }) ∧
      (∃ m2, traverse_in false false
        { view := { urange1 := [10, 3, 5], mod_used := 5 }, param_urng1_iterator := 0,
          param_urng1_sentinel := 3, param_mod_used := 3, size := 3,
          first := { modmer_value := 5, urng1_iterator := 3, urng1_sentinel := 3, mod := 5,
                     distance := 4 },
          second := { modmer_value := 1, urng1_iterator := 1, urng1_sentinel := 1, mod := 1,
                      distance := 1 } } = .ok ([10, 5], m2) ∧
        m2.view = { urange1 := [10, 3, 5], mod_used := 5 })) :=
  ⟨by decide,
    (modmer_traversals_agree false
      { view := { urange1 := [10, 3, 5], mod_used := 5 }, param_urng1_iterator := 7,
        param_urng1_sentinel := 7, param_mod_used := 7, size := 7,
        first := { modmer_value := 9, urng1_iterator := 3, urng1_sentinel := 4, mod := 5,
                   distance := 6 },
        second := { modmer_value := 1, urng1_iterator := 1, urng1_sentinel := 1, mod := 1,
                    distance := 1 } }).2.2.2.1 [10, 5] _ (by decide)⟩

end Minions
